import Mathlib

/-!
Verification of the qi-validate partition / qi-number engine.

A `Graph` is embedded as a vertex count together with an adjacency
predicate `adj : ℕ → ℕ → Bool` (the `adjMatrix_` of `Graph.cpp`); a
`Partition` of `n` vertices is a `List ℕ` of length `n` whose `v`-th entry
is the block label of vertex `v` (the `partition_` array of `Partition.cpp`,
restricted to `num_vertices_` entries).  Fallible operations return a
structure mirroring `OperationResult`, and the external DSATUR coloring
oracle is a parameter returning `Option ℕ` (its color count; `none` models
a thrown exception).
-/

namespace QiValidate

/-- Embeds `Partition::MAX_VERTICES` from `Partition.h`. -/
def MAX_VERTICES : ℕ := 100

/-- Embeds `Partition::getNumBlocks` from `Partition.cpp`: mark `used[label]` for the
label of every vertex, then count the marked entries of the
`MAX_VERTICES`-sized array. -/
def getNumBlocks (p : List ℕ) : ℕ :=
  ((List.range MAX_VERTICES).filter (fun i => p.contains i)).length

/-- Embeds `Partition::mergeBlocks` from `Partition.cpp`: relabel every vertex of
`block2` into `block1`; no-op when the two labels coincide. -/
def mergeBlocks (p : List ℕ) (block1 block2 : ℕ) : List ℕ :=
  if block1 = block2 then p
  else p.map (fun l => if l = block2 then block1 else l)

/-- The label list in order of first appearance: the `block_labels` array
built by the `seen[]` loops of `Partition.cpp` (shared by the exhaustive and
the chromatic paths). -/
def firstOccurrences : List ℕ → List ℕ
  | [] => []
  | a :: t => a :: (firstOccurrences t).filter (fun x => x ≠ a)

/-- Embeds `Partition::areBlocksConnectedInQuotient` from `Partition.cpp` (the
member function, which short-circuits equal blocks): some vertex labelled
`block1` has a graph edge to some vertex labelled `block2`. -/
def areBlocksConnectedInQuotient (adj : ℕ → ℕ → Bool) (p : List ℕ)
    (block1 block2 : ℕ) : Bool :=
  if block1 = block2 then false
  else (List.range p.length).any (fun u =>
    p.getD u 0 = block1 &&
      (List.range p.length).any (fun v => p.getD v 0 = block2 && adj u v))

/-- Embeds `PartitionOperations::areBlocksConnectedInQuotient` from
`Operations.cpp`: scans the two blocks' vertex lists for a crossing edge.
Unlike the `Partition` member it has no `block1 == block2` short-circuit. -/
def opBlocksConnected (adj : ℕ → ℕ → Bool) (p : List ℕ)
    (block1 block2 : ℕ) : Bool :=
  (List.range p.length).any (fun v1 =>
    p.getD v1 0 = block1 &&
      (List.range p.length).any (fun v2 => p.getD v2 0 = block2 && adj v1 v2))

/-- Modelled from the spec: `Partition::renormalizeLabels` (declared in
`Partition.h`, implementation not part of the provided sources) "rewrites
arbitrary labels to a contiguous `0..k-1` range preserving the relative
order of first appearance". -/
def renormalizeLabels (p : List ℕ) : List ℕ :=
  p.map (fun l => (firstOccurrences p).indexOf l)

/-- The fields of `OperationResult` (Operations.h) used by the claims.
`result_partition` defaults to the default-constructed `Partition()`
(zero vertices), as in C++. -/
structure OperationResult where
  success : Bool
  result_partition : List ℕ
  deriving DecidableEq

/-- Embeds `PartitionOperations::performMuOperation` from `Operations.cpp`: fails
when the blocks are quotient-connected (returning the default
`result_partition`), otherwise relabels every vertex of `block2` to
`block1` and renormalizes. -/
def performMuOperation (adj : ℕ → ℕ → Bool) (p : List ℕ)
    (block1 block2 : ℕ) : OperationResult :=
  if opBlocksConnected adj p block1 block2 then
    { success := false, result_partition := [] }
  else
    { success := true
      result_partition :=
        renormalizeLabels (p.map (fun l => if l = block2 then block1 else l)) }

/-- Embeds `PartitionOperations::performMcOperation` from `Operations.cpp`: the
same relabel-and-renormalize mechanics with the opposite precondition. -/
def performMcOperationOp (adj : ℕ → ℕ → Bool) (p : List ℕ)
    (block1 block2 : ℕ) : OperationResult :=
  if opBlocksConnected adj p block1 block2 then
    { success := true
      result_partition :=
        renormalizeLabels (p.map (fun l => if l = block2 then block1 else l)) }
  else
    { success := false, result_partition := [] }

/-- Embeds `McOperations::performMcOperation` from `McOperations.cpp`: copy the
partition and `mergeBlocks` — no connectivity check, no renormalization. -/
def performMcOperationMc (p : List ℕ) (block1 block2 : ℕ) : List ℕ :=
  mergeBlocks p block1 block2

/-- Embeds `McOperations::findAllMcOperations` from `McOperations.cpp`: all pairs
`b1 < b2` of used labels below `MAX_VERTICES` that are connected in the
quotient graph, in lexicographic order. -/
def findAllMcOperations (adj : ℕ → ℕ → Bool) (p : List ℕ) : List (ℕ × ℕ) :=
  (List.range MAX_VERTICES).flatMap (fun b1 =>
    if p.contains b1 then
      ((List.range MAX_VERTICES).filter (fun b2 =>
        decide (b1 < b2) && p.contains b2 &&
          areBlocksConnectedInQuotient adj p b1 b2)).map (fun b2 => (b1, b2))
    else [])

/-- Embeds `McOperations::performRandomMcOperation` from `McOperations.cpp`, with
the `rand()` draw made an explicit parameter `r` (the code computes
`rand() % num_operations`): return the partition unchanged if no connected
pair exists, else merge the chosen pair. -/
def performRandomMcOperation (adj : ℕ → ℕ → Bool) (p : List ℕ) (r : ℕ) :
    List ℕ :=
  let ops := findAllMcOperations adj p
  if ops.length = 0 then p
  else
    let pr := ops.getD (r % ops.length) (0, 0)
    performMcOperationMc p pr.1 pr.2

/-- Partitions reachable by the `Main.cpp` driver loop: the identity
partition on `n` vertices followed by any number of random Mc steps. -/
inductive ReachableMc (adj : ℕ → ℕ → Bool) (n : ℕ) : List ℕ → Prop
  | init : ReachableMc adj n (List.range n)
  | step (p : List ℕ) (r : ℕ) : ReachableMc adj n p →
      ReachableMc adj n (performRandomMcOperation adj p r)

/-! ## The quotient graph and the qi-number engine (`Partition.cpp`) -/

/-- The quotient adjacency matrix built by every qi path of
`Partition.cpp`: scan all vertex pairs `u < v`; an edge whose endpoints
carry distinct labels makes those two labels adjacent (both directions are
set, so the result is symmetric; equal labels are never adjacent). -/
def buildQuotientAdj (n : ℕ) (adj : ℕ → ℕ → Bool) (p : List ℕ)
    (x y : ℕ) : Bool :=
  (List.range n).any (fun u => (List.range n).any (fun v =>
    decide (u < v) && adj u v && !(p.getD u 0 == p.getD v 0) &&
      ((p.getD u 0 == x && p.getD v 0 == y) ||
       (p.getD u 0 == y && p.getD v 0 == x))))

/-- The label-compressed quotient adjacency handed to the coloring oracle
(`label_to_index` mapping of `Partition.cpp`): index `i` stands for the
`i`-th label of the first-occurrence list `L`. -/
def compAdj (L : List ℕ) (adjq : ℕ → ℕ → Bool) (i j : ℕ) : Bool :=
  adjq (L.getD i 0) (L.getD j 0)

/-- The inner subset loop of `Partition::findOptimalQi`: walk the bits of
`subset` along the `unused_blocks` list `rest`, adding each selected
candidate to the independent set under construction when it is
non-adjacent to every member; a conflicting candidate invalidates the
whole subset (`valid_set = false`), modelled by `none`. -/
def buildIndepSet (adjq : ℕ → ℕ → Bool) :
    List ℕ → ℕ → List ℕ → Option (List ℕ)
  | [], _, cur => some cur
  | c :: rest, subset, cur =>
    if subset % 2 = 1 then
      if cur.all (fun j => !(adjq c j)) then
        buildIndepSet adjq rest (subset / 2) (cur ++ [c])
      else none
    else buildIndepSet adjq rest (subset / 2) cur

/-- Contribution of one independent set: `(set_size > 1) ? set_size - 1 : 0`. -/
def contribution (iset : List ℕ) : ℕ :=
  if 1 < iset.length then iset.length - 1 else 0

/-- The `for (subset = 0; subset < max_subset; subset++)` loop of the plain
`Partition::findOptimalQi`, with the recursive call abstracted as
`search` (applied to the enlarged used set, the updated running score and
the current `max_qi`). -/
def qiLoop (adjq : ℕ → ℕ → Bool) (start : ℕ) (rest : List ℕ)
    (search : List ℕ → ℕ → ℕ → ℕ) (used : List ℕ) (current : ℕ) :
    List ℕ → ℕ → ℕ
  | [], max_qi => max_qi
  | s :: ss, max_qi =>
    let mq := match buildIndepSet adjq rest s [start] with
      | some iset => search (iset ++ used) (current + contribution iset) max_qi
      | none => max_qi
    qiLoop adjq start rest search used current ss mq

/-- The plain `Partition::findOptimalQi` (no early stopping), with an
explicit fuel argument bounding the recursion depth; every call strictly
shrinks the unused-label list, so fuel `labels.length + 1` (used by the
callers below) never runs out.  The pivot is the first unused label of
`labels`; the loop tries every subset bitmask over the later unused
labels, and the base case folds `current` into `max_qi`. -/
def findOptimalQiF (adjq : ℕ → ℕ → Bool) (labels : List ℕ) :
    ℕ → List ℕ → ℕ → ℕ → ℕ
  | 0, _, _, max_qi => max_qi
  | fuel + 1, used, current, max_qi =>
    match labels.filter (fun l => !(used.contains l)) with
    | [] => max current max_qi
    | start :: rest =>
      qiLoop adjq start rest (findOptimalQiF adjq labels fuel) used current
        (List.range (2 ^ rest.length)) max_qi

/-- The subset loop of the early-stopping `Partition::findOptimalQi`
overload: identical to `qiLoop` except that each iteration first returns
`max_qi` as soon as it reaches `min_required_qi`. -/
def qiLoopE (adjq : ℕ → ℕ → Bool) (treq start : ℕ) (rest : List ℕ)
    (search : List ℕ → ℕ → ℕ → ℕ) (used : List ℕ) (current : ℕ) :
    List ℕ → ℕ → ℕ
  | [], max_qi => max_qi
  | s :: ss, max_qi =>
    if treq ≤ max_qi then max_qi
    else
      let mq := match buildIndepSet adjq rest s [start] with
        | some iset =>
            search (iset ++ used) (current + contribution iset) max_qi
        | none => max_qi
      qiLoopE adjq treq start rest search used current ss mq

/-- The early-stopping `Partition::findOptimalQi` overload: the plain
search plus the entry check `if (max_qi >= min_required_qi) return`. -/
def findOptimalQiE (adjq : ℕ → ℕ → Bool) (labels : List ℕ) (treq : ℕ) :
    ℕ → List ℕ → ℕ → ℕ → ℕ
  | 0, _, _, max_qi => max_qi
  | fuel + 1, used, current, max_qi =>
    if treq ≤ max_qi then max_qi
    else
      match labels.filter (fun l => !(used.contains l)) with
      | [] => max current max_qi
      | start :: rest =>
        qiLoopE adjq treq start rest (findOptimalQiE adjq labels treq fuel)
          used current (List.range (2 ^ rest.length)) max_qi

/-- Embeds `Partition::calculateQiNumberInternalExhaustive` from `Partition.cpp`:
`0` for a single block, else the exhaustive backtracking search over the
quotient graph, started with an empty used set and scores `0`. -/
def calculateQiNumberInternalExhaustive (adj : ℕ → ℕ → Bool) (p : List ℕ) :
    ℕ :=
  if getNumBlocks p = 1 then 0
  else
    let L := firstOccurrences p
    findOptimalQiF (buildQuotientAdj p.length adj p) L (L.length + 1) [] 0 0

/-- The coloring oracle boundary (`GraphColoring::Dsatur` of `dsatur.hpp`,
external per the spec): given the compressed quotient graph (vertex count
and adjacency) it returns its color count, or `none` when it throws. -/
def Oracle : Type := ℕ → (ℕ → ℕ → Bool) → Option ℕ

/-- Embeds `Partition::calculateQiNumberInternal(const Graph&)` from
`Partition.cpp` (no threshold): `0` for one block, else `k` minus the
oracle's color count; a throwing oracle falls back to the exhaustive
computation. -/
def calcQiInternal (oracle : Oracle) (adj : ℕ → ℕ → Bool) (p : List ℕ) :
    ℤ :=
  if getNumBlocks p = 1 then 0
  else
    match oracle (firstOccurrences p).length
      (compAdj (firstOccurrences p) (buildQuotientAdj p.length adj p)) with
    | some c => (getNumBlocks p : ℤ) - (c : ℤ)
    | none => (calculateQiNumberInternalExhaustive adj p : ℤ)

/-- Embeds `Partition::calculateQiNumberInternal(const Graph&, int)` from
`Partition.cpp` (early stopping): `0` for one block; for `k > 15` the
oracle value is returned only when it clears the threshold, otherwise the
undetermined sentinel `-1` (also on oracle failure); for small `k` a
non-positive threshold defers to the exact no-threshold routine, and a
positive one runs the early-stopping backtracking search. -/
def calcQiInternalT (oracle : Oracle) (adj : ℕ → ℕ → Bool) (p : List ℕ)
    (min_required_qi : ℤ) : ℤ :=
  if getNumBlocks p = 1 then 0
  else if 15 < getNumBlocks p then
    match oracle (firstOccurrences p).length
      (compAdj (firstOccurrences p) (buildQuotientAdj p.length adj p)) with
    | some c =>
        if min_required_qi ≤ (getNumBlocks p : ℤ) - (c : ℤ) then
          (getNumBlocks p : ℤ) - (c : ℤ)
        else -1
    | none => -1
  else if min_required_qi ≤ 0 then calcQiInternal oracle adj p
  else
    (findOptimalQiE (buildQuotientAdj p.length adj p) (firstOccurrences p)
      min_required_qi.toNat ((firstOccurrences p).length + 1) [] 0 0 : ℤ)

/-! ## Specification-side notions: independent-set covers and the
chromatic number of the quotient graph -/

/-- A partition of the label list `L` into pairwise-disjoint independent
sets: the parts join to a permutation of `L` and no part contains an
adjacent pair. -/
def IndepCover (L : List ℕ) (adjq : ℕ → ℕ → Bool)
    (parts : List (List ℕ)) : Prop :=
  parts.flatten.Perm L ∧
    ∀ G ∈ parts, G.Pairwise (fun a b => adjq a b = false)

/-- The qi score `Σ max(|G_i| - 1, 0)` of a cover (truncated ℕ
subtraction makes the empty-part case come out right). -/
def coverScore (parts : List (List ℕ)) : ℕ :=
  (parts.map (fun G => G.length - 1)).sum

/-- Predicate: `q` is the maximum qi score over all independent-set covers of `L`. -/
def IsQiMax (L : List ℕ) (adjq : ℕ → ℕ → Bool) (q : ℕ) : Prop :=
  (∃ parts, IndepCover L adjq parts ∧ coverScore parts = q) ∧
    ∀ parts, IndepCover L adjq parts → coverScore parts ≤ q

/-- A proper coloring of the (compressed) quotient graph with `c` colors:
positions of `L` are the vertices, `compAdj` the adjacency. -/
def ColorableN (L : List ℕ) (adjq : ℕ → ℕ → Bool) (c : ℕ) : Prop :=
  ∃ f : Fin L.length → Fin c,
    ∀ i j : Fin L.length, compAdj L adjq i.val j.val = true → f i ≠ f j

instance (L : List ℕ) (adjq : ℕ → ℕ → Bool) (c : ℕ) :
    Decidable (ColorableN L adjq c) := by
  unfold ColorableN; infer_instance

/-- The chromatic number `χ(Q)` of the quotient graph: the least color
count of a proper coloring (`0` when no coloring exists at all, which
cannot happen for the loop-free graphs built here). -/
def chromatic (L : List ℕ) (adjq : ℕ → ℕ → Bool) : ℕ :=
  if h : ColorableN L adjq L.length then
    Nat.find (⟨L.length, h⟩ : ∃ c, ColorableN L adjq c)
  else 0

/-- Number of nonempty parts of a cover. -/
def nonemptyCount (parts : List (List ℕ)) : ℕ :=
  (parts.filter (fun G => !G.isEmpty)).length

/-- The list of labels not yet marked `used` (the search's `!used[...]`
filters), in label-list order. -/
def unusedL (labels used : List ℕ) : List ℕ :=
  labels.filter (fun l => !(used.contains l))

/-- The bitmask selecting exactly the members of `P` among `rest`
(bit `i` set iff `rest[i] ∈ P`), as enumerated by the subset loop. -/
def encodeSubset : List ℕ → List ℕ → ℕ
  | [], _ => 0
  | r :: rs, P => (if r ∈ P then 1 else 0) + 2 * encodeSubset rs P

/-- The label-level coloring induced by a positional coloring. -/
def labelColor (L : List ℕ) {c : ℕ} (f : Fin L.length → Fin c) (l : ℕ) : ℕ :=
  if hm : l ∈ L then (f ⟨L.indexOf l, List.indexOf_lt_length.mpr hm⟩).val else 0

/-- The 4-cycle `0-1-2-3-0` from §8 of the spec, as an adjacency
predicate (used by the concrete witnesses below). -/
def adjC4 : ℕ → ℕ → Bool := fun u v =>
  (u == 0 && v == 1) || (u == 1 && v == 0) ||
  (u == 1 && v == 2) || (u == 2 && v == 1) ||
  (u == 2 && v == 3) || (u == 3 && v == 2) ||
  (u == 3 && v == 0) || (u == 0 && v == 3)

/-- The edgeless graph, as an adjacency predicate. -/
def adjNone : ℕ → ℕ → Bool := fun _ _ => false

/-! ## Basic facts about labels, `getNumBlocks` and the quotient matrix -/

theorem mem_firstOccurrences {x : ℕ} :
    ∀ {p : List ℕ}, x ∈ firstOccurrences p ↔ x ∈ p := by
  intro p
  induction p with
  | nil => simp [firstOccurrences]
  | cons a t ih =>
    simp only [firstOccurrences, List.mem_cons, List.mem_filter,
      decide_eq_true_eq]
    constructor
    · rintro (rfl | ⟨hm, _⟩)
      · exact Or.inl rfl
      · exact Or.inr (ih.mp hm)
    · rintro (rfl | hm)
      · exact Or.inl rfl
      · by_cases hxa : x = a
        · exact Or.inl hxa
        · exact Or.inr ⟨ih.mpr hm, hxa⟩

theorem firstOccurrences_nodup : ∀ (p : List ℕ), (firstOccurrences p).Nodup := by
  intro p
  induction p with
  | nil => simp [firstOccurrences]
  | cons a t ih =>
    simp only [firstOccurrences, List.nodup_cons]
    refine ⟨fun hmem => ?_, ih.filter _⟩
    have h2 := (List.mem_filter.mp hmem).2
    simp at h2

theorem firstOccurrences_toFinset (p : List ℕ) :
    (firstOccurrences p).toFinset = p.toFinset := by
  ext x
  simp [mem_firstOccurrences]

theorem firstOccurrences_length (p : List ℕ) :
    (firstOccurrences p).length = p.toFinset.card := by
  rw [← firstOccurrences_toFinset,
    List.toFinset_card_of_nodup (firstOccurrences_nodup p)]

theorem getNumBlocks_eq_card {p : List ℕ}
    (hrange : ∀ l ∈ p, l < MAX_VERTICES) :
    getNumBlocks p = p.toFinset.card := by
  unfold getNumBlocks
  have hnd : ((List.range MAX_VERTICES).filter (fun i => p.contains i)).Nodup :=
    (List.nodup_range _).filter _
  rw [← List.toFinset_card_of_nodup hnd]
  congr 1
  ext x
  simp only [List.mem_toFinset, List.mem_filter, List.mem_range,
    List.contains_iff_exists_mem_beq]
  constructor
  · rintro ⟨-, y, hy, hxy⟩
    have hx : x = y := by simpa using hxy
    exact hx ▸ hy
  · intro hx
    exact ⟨hrange x hx, x, hx, by simp⟩

theorem getNumBlocks_eq_length {p : List ℕ}
    (hrange : ∀ l ∈ p, l < MAX_VERTICES) :
    getNumBlocks p = (firstOccurrences p).length := by
  rw [getNumBlocks_eq_card hrange, firstOccurrences_length]

theorem buildQuotientAdj_eq_true_iff {n : ℕ} {adj : ℕ → ℕ → Bool}
    {p : List ℕ} {x y : ℕ} :
    buildQuotientAdj n adj p x y = true ↔
      ∃ u < n, ∃ v < n, u < v ∧ adj u v = true ∧ p.getD u 0 ≠ p.getD v 0 ∧
        ((p.getD u 0 = x ∧ p.getD v 0 = y) ∨
         (p.getD u 0 = y ∧ p.getD v 0 = x)) := by
  simp only [buildQuotientAdj, List.any_eq_true, List.mem_range,
    Bool.and_eq_true, Bool.or_eq_true, decide_eq_true_eq, beq_iff_eq,
    Bool.not_eq_true', beq_eq_false_iff_ne, ne_eq]
  constructor
  · rintro ⟨u, hu, v, hv, ⟨⟨huv, hadj⟩, hne⟩, hor⟩
    exact ⟨u, hu, v, hv, huv, hadj, hne, hor⟩
  · rintro ⟨u, hu, v, hv, huv, hadj, hne, hor⟩
    exact ⟨u, hu, v, hv, ⟨⟨huv, hadj⟩, hne⟩, hor⟩

theorem buildQuotientAdj_symm (n : ℕ) (adj : ℕ → ℕ → Bool) (p : List ℕ)
    (x y : ℕ) :
    buildQuotientAdj n adj p x y = buildQuotientAdj n adj p y x := by
  rw [Bool.eq_iff_iff, buildQuotientAdj_eq_true_iff, buildQuotientAdj_eq_true_iff]
  constructor <;>
  · rintro ⟨u, hu, v, hv, huv, hadj, hne, hor⟩
    exact ⟨u, hu, v, hv, huv, hadj, hne, hor.symm⟩

theorem buildQuotientAdj_irrefl (n : ℕ) (adj : ℕ → ℕ → Bool) (p : List ℕ)
    (x : ℕ) : buildQuotientAdj n adj p x x = false := by
  by_contra h
  rw [Bool.not_eq_false, buildQuotientAdj_eq_true_iff] at h
  obtain ⟨u, -, v, -, -, -, hne, hor⟩ := h
  rcases hor with ⟨h1, h2⟩ | ⟨h1, h2⟩ <;> exact hne (h1.trans h2.symm)

/-! ## Facts about covers and their scores -/

theorem coverScore_append (a b : List (List ℕ)) :
    coverScore (a ++ b) = coverScore a + coverScore b := by
  simp [coverScore]

theorem coverScore_cons (G : List ℕ) (ps : List (List ℕ)) :
    coverScore (G :: ps) = (G.length - 1) + coverScore ps := by
  simp [coverScore]

theorem coverScore_perm {a b : List (List ℕ)} (h : a.Perm b) :
    coverScore a = coverScore b :=
  (h.map _).sum_eq

theorem coverScore_add_nonemptyCount (parts : List (List ℕ)) :
    coverScore parts + nonemptyCount parts = parts.flatten.length := by
  induction parts with
  | nil => simp [coverScore, nonemptyCount]
  | cons G ps ih =>
    cases G with
    | nil => simpa [coverScore_cons, nonemptyCount] using ih
    | cons x t =>
      simp only [coverScore_cons, nonemptyCount, List.filter_cons,
        List.isEmpty_cons, Bool.not_false, List.length_cons,
        List.flatten_cons, List.length_append, if_true, ite_true,
        eq_self_iff_true] at ih ⊢
      omega

theorem nonemptyCount_le_length (parts : List (List ℕ)) :
    nonemptyCount parts ≤ parts.length :=
  List.length_filter_le _ _

/-- The all-singletons cover: always independent, score `0`. -/
theorem singleton_cover (L : List ℕ) (adjq : ℕ → ℕ → Bool) :
    IndepCover L adjq (L.map (fun l => [l])) ∧
      coverScore (L.map (fun l => [l])) = 0 := by
  refine ⟨⟨?_, ?_⟩, ?_⟩
  · induction L with
    | nil => simp
    | cons a t ih => simpa using List.Perm.cons a ih
  · intro G hG
    simp only [List.mem_map] at hG
    obtain ⟨l, -, rfl⟩ := hG
    simp
  · simp [coverScore]
    induction L with
    | nil => simp
    | cons a t ih => simpa using ih

theorem coverScore_le_of_cover {L : List ℕ} {adjq : ℕ → ℕ → Bool}
    {parts : List (List ℕ)} (h : IndepCover L adjq parts) :
    coverScore parts + nonemptyCount parts = L.length := by
  rw [coverScore_add_nonemptyCount]
  exact h.1.length_eq

/-- A cover of a nonempty list has a nonempty part, so its score is at
most `L.length - 1`; in particular for `|L| = 1` the score is `0`. -/
theorem one_le_nonemptyCount {L : List ℕ} {adjq : ℕ → ℕ → Bool}
    {parts : List (List ℕ)} (h : IndepCover L adjq parts) (hL : L ≠ []) :
    1 ≤ nonemptyCount parts := by
  by_contra hc
  push_neg at hc
  interval_cases hcc : nonemptyCount parts
  have : ∀ G ∈ parts, G = [] := by
    intro G hG
    by_contra hGne
    have hmem : G ∈ parts.filter (fun G => !G.isEmpty) := by
      rw [List.mem_filter]
      exact ⟨hG, by simpa [List.isEmpty_iff] using hGne⟩
    have : 0 < nonemptyCount parts := List.length_pos.mpr (by
      intro hnil
      rw [hnil] at hmem
      simp at hmem)
    omega
  have hflat : parts.flatten = [] := by
    rw [List.flatten_eq_nil_iff]
    exact this
  have := h.1.length_eq
  rw [hflat] at this
  exact hL (List.eq_nil_of_length_eq_zero this.symm)

/-! ## The unused-label list driving the backtracking search -/

theorem contains_eq_decide_mem (A : List ℕ) (x : ℕ) :
    A.contains x = decide (x ∈ A) := by
  by_cases h : x ∈ A <;> simp [h]

theorem unusedL_nil (labels : List ℕ) : unusedL labels [] = labels := by
  unfold unusedL
  rw [List.filter_eq_self]
  intro a _
  simp [contains_eq_decide_mem]

theorem unusedL_append (labels A B : List ℕ) :
    unusedL labels (A ++ B) =
      (unusedL labels B).filter (fun l => !(A.contains l)) := by
  unfold unusedL
  rw [List.filter_filter]
  apply List.filter_congr
  intro x _
  by_cases hA : x ∈ A <;> by_cases hB : x ∈ B <;>
    simp [contains_eq_decide_mem, List.mem_append, hA, hB]

theorem unusedL_nodup (labels used : List ℕ) (hnd : labels.Nodup) :
    (unusedL labels used).Nodup :=
  hnd.filter _

theorem unusedL_subset {labels used : List ℕ} {x : ℕ}
    (h : x ∈ unusedL labels used) : x ∈ labels :=
  (List.mem_filter.mp h).1

theorem length_filter_lt_of_mem {l : List ℕ} {q : ℕ → Bool} {x : ℕ}
    (hx : x ∈ l) (hqx : q x = false) : (l.filter q).length < l.length := by
  induction l with
  | nil => cases hx
  | cons a t ih =>
    rcases List.mem_cons.mp hx with rfl | hxt
    · rw [List.filter_cons, hqx]
      exact Nat.lt_succ_of_le (List.length_filter_le _ _)
    · rw [List.filter_cons]
      cases hqa : q a
      · exact Nat.lt_succ_of_lt (ih hxt)
      · simpa using Nat.succ_lt_succ (ih hxt)

theorem unusedL_length_lt {labels used iset : List ℕ} {start : ℕ}
    (hmem : start ∈ unusedL labels used) (hin : start ∈ iset) :
    (unusedL labels (iset ++ used)).length < (unusedL labels used).length := by
  rw [unusedL_append]
  exact length_filter_lt_of_mem hmem (by simp [contains_eq_decide_mem, hin])

/-- Two duplicate-free lists with the same members are permutations. -/
theorem perm_of_nodup_mem_iff {a b : List ℕ} (ha : a.Nodup) (hb : b.Nodup)
    (h : ∀ x, x ∈ a ↔ x ∈ b) : a.Perm b := by
  rw [List.perm_iff_count]
  intro x
  by_cases hx : x ∈ a
  · rw [List.count_eq_one_of_mem ha hx, List.count_eq_one_of_mem hb ((h x).mp hx)]
  · rw [List.count_eq_zero_of_not_mem hx,
      List.count_eq_zero_of_not_mem (fun hc => hx ((h x).mpr hc))]

/-! ## Facts about `buildIndepSet` -/

theorem buildIndepSet_shape {adjq : ℕ → ℕ → Bool} :
    ∀ {rest : List ℕ} {s : ℕ} {cur out : List ℕ},
      buildIndepSet adjq rest s cur = some out →
      ∃ sel, out = cur ++ sel ∧ sel.Sublist rest := by
  intro rest
  induction rest with
  | nil =>
    intro s cur out h
    simp only [buildIndepSet, Option.some.injEq] at h
    exact ⟨[], by simp [h.symm], List.Sublist.refl _⟩
  | cons c rest ih =>
    intro s cur out h
    simp only [buildIndepSet] at h
    by_cases hs : s % 2 = 1
    · rw [if_pos hs] at h
      by_cases hchk : cur.all (fun j => !(adjq c j))
      · rw [if_pos hchk] at h
        obtain ⟨sel, hout, hsub⟩ := ih h
        exact ⟨c :: sel, by simpa [List.append_assoc] using hout,
          List.Sublist.cons₂ c hsub⟩
      · rw [if_neg hchk] at h
        cases h
    · rw [if_neg hs] at h
      obtain ⟨sel, hout, hsub⟩ := ih h
      exact ⟨sel, hout, List.Sublist.cons c hsub⟩

theorem buildIndepSet_pairwise {adjq : ℕ → ℕ → Bool} :
    ∀ {rest : List ℕ} {s : ℕ} {cur out : List ℕ},
      buildIndepSet adjq rest s cur = some out →
      cur.Pairwise (fun a b => adjq b a = false) →
      out.Pairwise (fun a b => adjq b a = false) := by
  intro rest
  induction rest with
  | nil =>
    intro s cur out h hcur
    simp only [buildIndepSet, Option.some.injEq] at h
    exact h ▸ hcur
  | cons c rest ih =>
    intro s cur out h hcur
    simp only [buildIndepSet] at h
    by_cases hs : s % 2 = 1
    · rw [if_pos hs] at h
      by_cases hchk : cur.all (fun j => !(adjq c j))
      · rw [if_pos hchk] at h
        refine ih h (List.pairwise_append.mpr ⟨hcur, List.pairwise_singleton _ _, ?_⟩)
        intro a ha b hb
        rw [List.mem_singleton] at hb
        subst hb
        have := List.all_eq_true.mp hchk a ha
        simpa using this
      · rw [if_neg hchk] at h
        cases h
    · rw [if_neg hs] at h
      exact ih h hcur

theorem encodeSubset_lt (P : List ℕ) :
    ∀ (rest : List ℕ), encodeSubset rest P < 2 ^ rest.length := by
  intro rest
  induction rest with
  | nil => simp [encodeSubset]
  | cons r rs ih =>
    simp only [encodeSubset, List.length_cons, pow_succ]
    by_cases hr : r ∈ P
    · rw [if_pos hr]; omega
    · rw [if_neg hr]; omega

theorem buildIndepSet_encode {adjq : ℕ → ℕ → Bool} {P : List ℕ}
    (hP : ∀ a ∈ P, ∀ b ∈ P, a ≠ b → adjq a b = false) :
    ∀ (rest cur : List ℕ), rest.Nodup → (∀ j ∈ cur, j ∉ rest) →
      (∀ j ∈ cur, j ∈ P) →
      buildIndepSet adjq rest (encodeSubset rest P) cur =
        some (cur ++ rest.filter (fun x => decide (x ∈ P))) := by
  intro rest
  induction rest with
  | nil => intro cur _ _ _; simp [buildIndepSet]
  | cons r rs ih =>
    intro cur hnd hdisj hcurP
    rw [List.nodup_cons] at hnd
    by_cases hr : r ∈ P
    · have hmod : encodeSubset (r :: rs) P % 2 = 1 := by
        simp only [encodeSubset, if_pos hr]
        omega
      have hdiv : encodeSubset (r :: rs) P / 2 = encodeSubset rs P := by
        simp only [encodeSubset, if_pos hr]
        omega
      have hchk : cur.all (fun j => !(adjq r j)) = true := by
        rw [List.all_eq_true]
        intro j hj
        have hne : r ≠ j := fun he => hdisj j hj (he ▸ List.mem_cons_self r rs)
        simp [hP r hr j (hcurP j hj) hne]
      simp only [buildIndepSet, if_pos hmod, if_pos hchk, hdiv]
      rw [ih (cur ++ [r]) hnd.2 ?_ ?_]
      · simp [hr, List.filter_cons, List.append_assoc]
      · intro j hj
        rcases List.mem_append.mp hj with hj | hj
        · exact fun hc => hdisj j hj (List.mem_cons_of_mem r hc)
        · rw [List.mem_singleton] at hj
          exact hj ▸ hnd.1
      · intro j hj
        rcases List.mem_append.mp hj with hj | hj
        · exact hcurP j hj
        · rw [List.mem_singleton] at hj
          exact hj ▸ hr
    · have hmod : ¬(encodeSubset (r :: rs) P % 2 = 1) := by
        simp only [encodeSubset, if_neg hr]
        omega
      have hdiv : encodeSubset (r :: rs) P / 2 = encodeSubset rs P := by
        simp only [encodeSubset, if_neg hr]
        omega
      simp only [buildIndepSet, if_neg hmod, hdiv]
      rw [ih cur hnd.2 ?_ hcurP]
      · simp [hr, List.filter_cons]
      · intro j hj
        exact fun hc => hdisj j hj (List.mem_cons_of_mem r hc)

/-! ## Pairwise-independence helpers -/

theorem pairwise_flip {adjq : ℕ → ℕ → Bool} {G : List ℕ}
    (hsym : ∀ a ∈ G, ∀ b ∈ G, adjq a b = adjq b a)
    (h : G.Pairwise (fun a b => adjq b a = false)) :
    G.Pairwise (fun a b => adjq a b = false) :=
  h.imp_of_mem (fun ha hb hr => (hsym _ ha _ hb).trans hr)

theorem indep_pair {adjq : ℕ → ℕ → Bool} {G : List ℕ}
    (hsym : ∀ a ∈ G, ∀ b ∈ G, adjq a b = adjq b a)
    (h : G.Pairwise (fun a b => adjq a b = false)) :
    ∀ a ∈ G, ∀ b ∈ G, a ≠ b → adjq a b = false := by
  have hflip : G.Pairwise (fun a b => adjq b a = false) :=
    h.imp_of_mem (fun ha hb hr => (hsym _ hb _ ha).trans hr)
  have hboth := h.and hflip
  have hs : Symmetric (fun a b : ℕ => adjq a b = false ∧ adjq b a = false) :=
    fun a b hab => ⟨hab.2, hab.1⟩
  intro a ha b hb hne
  exact (hboth.forall hs ha hb hne).1

/-! ## The independent set accepted by one loop iteration extends a cover
of the remaining labels to a cover of the current unused labels -/

theorem iset_facts {labels used : List ℕ} {adjq : ℕ → ℕ → Bool}
    {start : ℕ} {rest : List ℕ} (hnd : labels.Nodup)
    (hsym : ∀ a ∈ labels, ∀ b ∈ labels, adjq a b = adjq b a)
    (hu : unusedL labels used = start :: rest)
    {s : ℕ} {iset : List ℕ}
    (hbis : buildIndepSet adjq rest s [start] = some iset) :
    (∀ parts, IndepCover (unusedL labels (iset ++ used)) adjq parts →
       IndepCover (unusedL labels used) adjq (iset :: parts)) ∧
    contribution iset = iset.length - 1 ∧
    (unusedL labels (iset ++ used)).length < (unusedL labels used).length := by
  obtain ⟨sel, hout, hsub⟩ := buildIndepSet_shape hbis
  have hundup : (unusedL labels used).Nodup := unusedL_nodup _ _ hnd
  have hsr : (start :: rest).Nodup := hu ▸ hundup
  rw [List.nodup_cons] at hsr
  have hselnd : sel.Nodup := hsub.nodup hsr.2
  have hstart_sel : start ∉ sel := fun hc => hsr.1 (hsub.mem hc)
  have hiset_nodup : iset.Nodup := by
    rw [hout, List.nodup_append]
    exact ⟨List.nodup_singleton _, hselnd, by simpa using hstart_sel⟩
  have hstart_iset : start ∈ iset := by
    rw [hout]; exact List.mem_append_left _ (List.mem_singleton_self _)
  have hiset_unused : ∀ x ∈ iset, x ∈ unusedL labels used := by
    intro x hx
    rw [hout, List.mem_append, List.mem_singleton] at hx
    rcases hx with rfl | hx
    · rw [hu]; exact List.mem_cons_self _ _
    · rw [hu]; exact List.mem_cons_of_mem _ (hsub.mem hx)
  have hiset_labels : ∀ x ∈ iset, x ∈ labels :=
    fun x hx => unusedL_subset (hiset_unused x hx)
  have hindep : iset.Pairwise (fun a b => adjq a b = false) := by
    have h1 : iset.Pairwise (fun a b => adjq b a = false) :=
      buildIndepSet_pairwise hbis (List.pairwise_singleton _ _)
    exact pairwise_flip
      (fun a ha b hb => hsym a (hiset_labels a ha) b (hiset_labels b hb)) h1
  have hlen1 : 1 ≤ iset.length := by
    rw [hout]; simp
  refine ⟨?_, ?_, ?_⟩
  · intro parts hparts
    constructor
    · have h1 : (iset :: parts).flatten = iset ++ parts.flatten := rfl
      rw [h1]
      have h2 : (iset ++ parts.flatten).Perm
          (iset ++ unusedL labels (iset ++ used)) :=
        List.Perm.append_left iset hparts.1
      refine h2.trans ?_
      rw [unusedL_append]
      apply perm_of_nodup_mem_iff
      · rw [List.nodup_append]
        refine ⟨hiset_nodup, hundup.filter _, ?_⟩
        intro x hx hx2
        have := (List.mem_filter.mp hx2).2
        simp [contains_eq_decide_mem] at this
        exact this hx
      · exact hundup
      · intro x
        rw [List.mem_append, List.mem_filter]
        constructor
        · rintro (hx | ⟨hx, -⟩)
          · exact hiset_unused x hx
          · exact hx
        · intro hx
          by_cases hxi : x ∈ iset
          · exact Or.inl hxi
          · exact Or.inr ⟨hx, by simp [contains_eq_decide_mem, hxi]⟩
    · intro G hG
      rcases List.mem_cons.mp hG with rfl | hG
      · exact hindep
      · exact hparts.2 G hG
  · unfold contribution
    split <;> omega
  · exact unusedL_length_lt (by rw [hu]; exact List.mem_cons_self _ _) hstart_iset

/-! ## Generic lemmas about the subset loops -/

theorem qiLoop_mono {adjq : ℕ → ℕ → Bool} {start : ℕ}
    {rest : List ℕ} {search : List ℕ → ℕ → ℕ → ℕ} {used : List ℕ}
    {current : ℕ} (hs : ∀ u c m, m ≤ search u c m) :
    ∀ (ss : List ℕ) (m : ℕ),
      m ≤ qiLoop adjq start rest search used current ss m := by
  intro ss
  induction ss with
  | nil => intro m; simp [qiLoop]
  | cons s ss ih =>
    intro m
    simp only [qiLoop]
    cases hbis : buildIndepSet adjq rest s [start] with
    | none => exact ih m
    | some iset => exact le_trans (hs _ _ m) (ih _)

theorem qiLoop_le {adjq : ℕ → ℕ → Bool} {start : ℕ}
    {rest : List ℕ} {search : List ℕ → ℕ → ℕ → ℕ} {used : List ℕ}
    {current M : ℕ}
    (hstep : ∀ s iset m, buildIndepSet adjq rest s [start] = some iset →
      m ≤ M → search (iset ++ used) (current + contribution iset) m ≤ M) :
    ∀ (ss : List ℕ) (m : ℕ), m ≤ M →
      qiLoop adjq start rest search used current ss m ≤ M := by
  intro ss
  induction ss with
  | nil => intro m hm; simpa [qiLoop] using hm
  | cons s ss ih =>
    intro m hm
    simp only [qiLoop]
    cases hbis : buildIndepSet adjq rest s [start] with
    | none => exact ih m hm
    | some iset => exact ih _ (hstep s iset m hbis hm)

theorem qiLoop_preserve {adjq : ℕ → ℕ → Bool} {start : ℕ}
    {rest : List ℕ} {search : List ℕ → ℕ → ℕ → ℕ} {used : List ℕ}
    {current : ℕ} (P : ℕ → Prop)
    (hstep : ∀ s iset m, buildIndepSet adjq rest s [start] = some iset →
      P m → P (search (iset ++ used) (current + contribution iset) m)) :
    ∀ (ss : List ℕ) (m : ℕ), P m →
      P (qiLoop adjq start rest search used current ss m) := by
  intro ss
  induction ss with
  | nil => intro m hm; simpa [qiLoop] using hm
  | cons s ss ih =>
    intro m hm
    simp only [qiLoop]
    cases hbis : buildIndepSet adjq rest s [start] with
    | none => exact ih m hm
    | some iset => exact ih _ (hstep s iset m hbis hm)

theorem qiLoop_reach {adjq : ℕ → ℕ → Bool} {start : ℕ}
    {rest : List ℕ} {search : List ℕ → ℕ → ℕ → ℕ} {used : List ℕ}
    {current target : ℕ}
    (hmono : ∀ u c m, m ≤ search u c m)
    {s0 : ℕ} {iset0 : List ℕ}
    (hbis : buildIndepSet adjq rest s0 [start] = some iset0)
    (htarget : ∀ m, target ≤
      search (iset0 ++ used) (current + contribution iset0) m) :
    ∀ (ss : List ℕ) (m : ℕ), s0 ∈ ss →
      target ≤ qiLoop adjq start rest search used current ss m := by
  intro ss
  induction ss with
  | nil => intro m hm; cases hm
  | cons s ss ih =>
    intro m hm
    simp only [qiLoop]
    rcases List.mem_cons.mp hm with rfl | hm
    · rw [hbis]
      exact le_trans (htarget m) (qiLoop_mono hmono ss _)
    · cases hbis2 : buildIndepSet adjq rest s [start] with
      | none => exact ih m hm
      | some iset => exact ih _ hm

/-! ## The plain backtracking search: monotone, sound, and complete -/

theorem findOptimalQiF_mono {adjq : ℕ → ℕ → Bool} {labels : List ℕ} :
    ∀ (fuel : ℕ) (used : List ℕ) (current max_qi : ℕ),
      max_qi ≤ findOptimalQiF adjq labels fuel used current max_qi := by
  intro fuel
  induction fuel with
  | zero => intro used current max_qi; simp [findOptimalQiF]
  | succ fuel ih =>
    intro used current max_qi
    simp only [findOptimalQiF]
    cases hu : labels.filter (fun l => !(used.contains l)) with
    | nil => exact le_max_right _ _
    | cons start rest => exact qiLoop_mono (fun u c m => ih u c m) _ max_qi

theorem findOptimalQiF_le {adjq : ℕ → ℕ → Bool} {labels : List ℕ}
    (hnd : labels.Nodup)
    (hsym : ∀ a ∈ labels, ∀ b ∈ labels, adjq a b = adjq b a) :
    ∀ (fuel : ℕ) (used : List ℕ) (current max_qi B : ℕ),
      (unusedL labels used).length < fuel →
      (∀ parts, IndepCover (unusedL labels used) adjq parts →
        coverScore parts ≤ B) →
      findOptimalQiF adjq labels fuel used current max_qi ≤
        max max_qi (current + B) := by
  intro fuel
  induction fuel with
  | zero =>
    intro used current max_qi B hfuel _
    exact absurd hfuel (Nat.not_lt_zero _)
  | succ fuel ih =>
    intro used current max_qi B hfuel hB
    simp only [findOptimalQiF]
    cases hu : labels.filter (fun l => !(used.contains l)) with
    | nil => exact (by omega : max current max_qi ≤ max max_qi (current + B))
    | cons start rest =>
      have hu2 : unusedL labels used = start :: rest := hu
      refine qiLoop_le ?_ _ max_qi (le_max_left _ _)
      intro s iset m hbis hm
      obtain ⟨hext, hcontrib, hdec⟩ := iset_facts hnd hsym hu2 hbis
      have hsing := singleton_cover (unusedL labels (iset ++ used)) adjq
      have hcB : contribution iset ≤ B := by
        have h1 := hB _ (hext _ hsing.1)
        rw [coverScore_cons, hsing.2] at h1
        omega
      have hB2 : ∀ parts,
          IndepCover (unusedL labels (iset ++ used)) adjq parts →
          coverScore parts ≤ B - contribution iset := by
        intro parts hp
        have h1 := hB _ (hext parts hp)
        rw [coverScore_cons] at h1
        omega
      have hfuel2 : (unusedL labels (iset ++ used)).length < fuel := by
        rw [unusedL_append] at hdec ⊢
        rw [hu2] at hdec hfuel ⊢
        omega
      have hrec := ih (iset ++ used) (current + contribution iset) m
        (B - contribution iset) hfuel2 hB2
      have heq : current + contribution iset + (B - contribution iset) =
          current + B := by omega
      rw [heq] at hrec
      omega

theorem findOptimalQiF_achieve {adjq : ℕ → ℕ → Bool} {labels : List ℕ}
    (hnd : labels.Nodup)
    (hsym : ∀ a ∈ labels, ∀ b ∈ labels, adjq a b = adjq b a) :
    ∀ (fuel : ℕ) (used : List ℕ) (current max_qi : ℕ),
      (unusedL labels used).length < fuel →
      (findOptimalQiF adjq labels fuel used current max_qi = max_qi ∨
       ∃ parts, IndepCover (unusedL labels used) adjq parts ∧
         findOptimalQiF adjq labels fuel used current max_qi =
           current + coverScore parts) := by
  intro fuel
  induction fuel with
  | zero =>
    intro used current max_qi hfuel
    exact absurd hfuel (Nat.not_lt_zero _)
  | succ fuel ih =>
    intro used current max_qi hfuel
    simp only [findOptimalQiF]
    cases hu : labels.filter (fun l => !(used.contains l)) with
    | nil =>
      have hu2 : unusedL labels used = [] := hu
      by_cases hcm : current ≤ max_qi
      · exact Or.inl (max_eq_right hcm)
      · refine Or.inr ⟨[], ⟨by rw [hu2]; exact List.Perm.nil, by simp⟩, ?_⟩
        exact (by omega : max current max_qi = current + 0)
    | cons start rest =>
      have hu2 : unusedL labels used = start :: rest := hu
      refine qiLoop_preserve (fun x => x = max_qi ∨
        ∃ parts, IndepCover (unusedL labels used) adjq parts ∧
          x = current + coverScore parts) ?_ _ max_qi (Or.inl rfl)
      intro s iset m hbis hm
      obtain ⟨hext, hcontrib, hdec⟩ := iset_facts hnd hsym hu2 hbis
      have hfuel2 : (unusedL labels (iset ++ used)).length < fuel := by
        rw [unusedL_append] at hdec ⊢
        rw [hu2] at hdec hfuel ⊢
        omega
      rcases ih (iset ++ used) (current + contribution iset) m hfuel2 with
        heq | ⟨parts, hcov, heq⟩
      · rw [heq]; exact hm
      · refine Or.inr ⟨iset :: parts, hext parts hcov, ?_⟩
        rw [heq, coverScore_cons]
        omega

theorem flatten_eq_nil_coverScore {parts : List (List ℕ)}
    (h : parts.flatten = []) : coverScore parts = 0 := by
  have h2 := coverScore_add_nonemptyCount parts
  rw [h] at h2
  simp only [List.length_nil] at h2
  omega

theorem findOptimalQiF_ge {adjq : ℕ → ℕ → Bool} {labels : List ℕ}
    (hnd : labels.Nodup)
    (hsym : ∀ a ∈ labels, ∀ b ∈ labels, adjq a b = adjq b a) :
    ∀ (fuel : ℕ) (used : List ℕ) (current max_qi : ℕ)
      (parts : List (List ℕ)),
      (unusedL labels used).length < fuel →
      IndepCover (unusedL labels used) adjq parts →
      current + coverScore parts ≤
        findOptimalQiF adjq labels fuel used current max_qi := by
  intro fuel
  induction fuel with
  | zero =>
    intro used current max_qi parts hfuel _
    exact absurd hfuel (Nat.not_lt_zero _)
  | succ fuel ih =>
    intro used current max_qi parts hfuel hcov
    simp only [findOptimalQiF]
    cases hu : labels.filter (fun l => !(used.contains l)) with
    | nil =>
      have hu2 : unusedL labels used = [] := hu
      rw [hu2] at hcov
      have h0 : coverScore parts = 0 := flatten_eq_nil_coverScore hcov.1.eq_nil
      rw [h0]
      exact (by omega : current + 0 ≤ max current max_qi)
    | cons start rest =>
      have hu2 : unusedL labels used = start :: rest := hu
      have hnd_un : (unusedL labels used).Nodup := unusedL_nodup _ _ hnd
      have hsrnd0 : (start :: rest).Nodup := hu2 ▸ hnd_un
      have hsrnd := hsrnd0
      rw [List.nodup_cons] at hsrnd
      have hstart_mem : start ∈ parts.flatten :=
        hcov.1.mem_iff.mpr (by rw [hu2]; exact List.mem_cons_self _ _)
      obtain ⟨P, hPmem, hstartP⟩ := List.mem_flatten.mp hstart_mem
      obtain ⟨pre, post, rfl⟩ := List.append_of_mem hPmem
      have hflat_eq : (pre ++ P :: post).flatten =
          pre.flatten ++ (P ++ post.flatten) := by simp
      have hflat_nodup : (pre ++ P :: post).flatten.Nodup :=
        (hcov.1.nodup_iff).mpr hnd_un
      have hnodup2 := hflat_nodup
      rw [hflat_eq] at hnodup2
      have hdisj1 : pre.flatten.Disjoint (P ++ post.flatten) :=
        (List.nodup_append.mp hnodup2).2.2
      have hnodup3 : (P ++ post.flatten).Nodup :=
        (List.nodup_append.mp hnodup2).2.1
      have hdisjP : P.Disjoint post.flatten :=
        (List.nodup_append.mp hnodup3).2.2
      have hPnodup : P.Nodup := (List.nodup_append.mp hnodup3).1
      have hPsub : ∀ x ∈ P, x ∈ start :: rest := by
        intro x hx
        rw [← hu2]
        exact hcov.1.mem_iff.mp (List.mem_flatten_of_mem hPmem hx)
      have hPlabels : ∀ x ∈ P, x ∈ labels := by
        intro x hx
        exact unusedL_subset (show x ∈ unusedL labels used by
          rw [hu2]; exact hPsub x hx)
      have hPboth : ∀ a ∈ P, ∀ b ∈ P, a ≠ b → adjq a b = false :=
        indep_pair (fun a ha b hb => hsym a (hPlabels a ha) b (hPlabels b hb))
          (hcov.2 P hPmem)
      have hbis := buildIndepSet_encode hPboth rest [start] hsrnd.2
        (by intro j hj; rw [List.mem_singleton] at hj; exact hj ▸ hsrnd.1)
        (by intro j hj; rw [List.mem_singleton] at hj; exact hj ▸ hstartP)
      have hiperm : ([start] ++ rest.filter (fun x => decide (x ∈ P))).Perm P := by
        apply perm_of_nodup_mem_iff
        · rw [List.nodup_append]
          refine ⟨List.nodup_singleton _, hsrnd.2.filter _, ?_⟩
          intro x hx hx2
          rw [List.mem_singleton] at hx
          subst hx
          exact hsrnd.1 (List.mem_filter.mp hx2).1
        · exact hPnodup
        · intro x
          rw [List.mem_append, List.mem_singleton, List.mem_filter]
          constructor
          · rintro (rfl | ⟨hxr, hxP⟩)
            · exact hstartP
            · simpa using hxP
          · intro hxP
            rcases List.mem_cons.mp (hPsub x hxP) with rfl | hxr
            · exact Or.inl rfl
            · exact Or.inr ⟨hxr, by simpa⟩
      obtain ⟨hext, hcontrib, hdec⟩ := iset_facts hnd hsym hu2 hbis
      have hfuel2 : (unusedL labels
          (([start] ++ rest.filter (fun x => decide (x ∈ P))) ++ used)).length <
          fuel := by
        rw [unusedL_append] at hdec ⊢
        rw [hu2] at hdec hfuel ⊢
        omega
      have hcov' : IndepCover (unusedL labels
          (([start] ++ rest.filter (fun x => decide (x ∈ P))) ++ used)) adjq
          (pre ++ post) := by
        constructor
        · rw [List.flatten_append, unusedL_append, hu2]
          apply perm_of_nodup_mem_iff
          · have hsl : (pre.flatten ++ post.flatten).Sublist
                (pre.flatten ++ (P ++ post.flatten)) :=
              (List.sublist_append_right P post.flatten).append_left pre.flatten
            exact hsl.nodup hnodup2
          · exact hsrnd0.filter _
          · intro x
            rw [List.mem_append, List.mem_filter]
            have hxiset : x ∈ ([start] ++ rest.filter (fun y => decide (y ∈ P)))
                ↔ x ∈ P := hiperm.mem_iff
            constructor
            · intro hx
              have hxflat : x ∈ (pre ++ P :: post).flatten := by
                rw [hflat_eq, List.mem_append, List.mem_append]
                rcases hx with hx | hx
                · exact Or.inl hx
                · exact Or.inr (Or.inr hx)
              have hxP : x ∉ P := by
                intro hxP
                rcases hx with hx | hx
                · exact hdisj1 hx (List.mem_append_left _ hxP)
                · exact hdisjP hxP hx
              refine ⟨by rw [← hu2]; exact hcov.1.mem_iff.mp hxflat, ?_⟩
              rw [contains_eq_decide_mem]
              simp only [Bool.not_eq_true', decide_eq_false_iff_not]
              exact fun hc => hxP (hxiset.mp hc)
            · rintro ⟨hx, hni⟩
              rw [contains_eq_decide_mem] at hni
              simp only [Bool.not_eq_true', decide_eq_false_iff_not] at hni
              have hxP : x ∉ P := fun hxP => hni (hxiset.mpr hxP)
              have hxflat : x ∈ (pre ++ P :: post).flatten :=
                hcov.1.mem_iff.mpr (by rw [hu2]; exact hx)
              rw [hflat_eq, List.mem_append, List.mem_append] at hxflat
              rcases hxflat with h1 | h2 | h3
              · exact Or.inl h1
              · exact absurd h2 hxP
              · exact Or.inr h3
        · intro G hG
          apply hcov.2
          rw [List.mem_append] at hG ⊢
          rcases hG with hG | hG
          · exact Or.inl hG
          · exact Or.inr (List.mem_cons_of_mem _ hG)
      have hscore : coverScore (pre ++ P :: post) =
          coverScore (pre ++ post) + (P.length - 1) := by
        rw [coverScore_append, coverScore_cons, coverScore_append]
        omega
      have hlen_eq : ([start] ++ rest.filter (fun x => decide (x ∈ P))).length
          = P.length := hiperm.length_eq
      have htarget : ∀ m, current + coverScore (pre ++ P :: post) ≤
          findOptimalQiF adjq labels fuel
            (([start] ++ rest.filter (fun x => decide (x ∈ P))) ++ used)
            (current + contribution
              ([start] ++ rest.filter (fun x => decide (x ∈ P)))) m := by
        intro m
        have h1 := ih ([start] ++ rest.filter (fun x => decide (x ∈ P)) ++ used)
          (current + contribution ([start] ++ rest.filter (fun x => decide (x ∈ P))))
          m (pre ++ post) hfuel2 hcov'
        have hstartP_len : 1 ≤ P.length := by
          cases P with
          | nil => cases hstartP
          | cons a t => simp
        omega
      exact qiLoop_reach (fun u c m => findOptimalQiF_mono fuel u c m) hbis
        htarget _ max_qi
        (List.mem_range.mpr (encodeSubset_lt P rest))

/-- The plain exhaustive search computes exactly the maximum cover score. -/
theorem findOptimalQiF_isQiMax {adjq : ℕ → ℕ → Bool} {labels : List ℕ}
    (hnd : labels.Nodup)
    (hsym : ∀ a ∈ labels, ∀ b ∈ labels, adjq a b = adjq b a) :
    IsQiMax labels adjq
      (findOptimalQiF adjq labels (labels.length + 1) [] 0 0) := by
  have hun : unusedL labels [] = labels := unusedL_nil labels
  have hfuel : (unusedL labels []).length < labels.length + 1 := by
    rw [hun]; omega
  constructor
  · rcases findOptimalQiF_achieve hnd hsym (labels.length + 1) [] 0 0 hfuel
      with h0 | ⟨parts, hcov, heq⟩
    · have hsing := singleton_cover labels adjq
      exact ⟨labels.map (fun l => [l]), hsing.1, by rw [hsing.2, h0]⟩
    · rw [hun] at hcov
      exact ⟨parts, hcov, by omega⟩
  · intro parts hcov
    have h1 := findOptimalQiF_ge hnd hsym (labels.length + 1) [] 0 0 parts
      hfuel (by rw [hun]; exact hcov)
    omega

/-! ## Covers versus colorings: the qi-number is `k - χ(Q)` -/

theorem colorableN_mono {L : List ℕ} {adjq : ℕ → ℕ → Bool} {c c' : ℕ}
    (h : ColorableN L adjq c) (hcc : c ≤ c') : ColorableN L adjq c' := by
  obtain ⟨f, hf⟩ := h
  refine ⟨fun i => Fin.castLE hcc (f i), fun i j hadj he => hf i j hadj ?_⟩
  apply Fin.ext
  have h2 := congrArg Fin.val he
  simpa using h2

theorem colorableN_length {L : List ℕ} {adjq : ℕ → ℕ → Bool}
    (hirr : ∀ a ∈ L, adjq a a = false) : ColorableN L adjq L.length := by
  refine ⟨fun i => i, fun i j hadj he => ?_⟩
  have hij : i = j := he
  subst hij
  unfold compAdj at hadj
  rw [List.getD_eq_getElem L 0 i.isLt] at hadj
  rw [hirr _ (List.getElem_mem _)] at hadj
  cases hadj

theorem chromatic_le {L : List ℕ} {adjq : ℕ → ℕ → Bool}
    (hirr : ∀ a ∈ L, adjq a a = false) {c : ℕ}
    (h : ColorableN L adjq c) : chromatic L adjq ≤ c := by
  unfold chromatic
  rw [dif_pos (colorableN_length hirr)]
  exact Nat.find_le h

theorem chromatic_spec {L : List ℕ} {adjq : ℕ → ℕ → Bool}
    (hirr : ∀ a ∈ L, adjq a a = false) :
    ColorableN L adjq (chromatic L adjq) := by
  unfold chromatic
  rw [dif_pos (colorableN_length hirr)]
  exact Nat.find_spec _

theorem chromatic_le_length {L : List ℕ} {adjq : ℕ → ℕ → Bool}
    (hirr : ∀ a ∈ L, adjq a a = false) : chromatic L adjq ≤ L.length :=
  chromatic_le hirr (colorableN_length hirr)

theorem chromatic_pos {L : List ℕ} {adjq : ℕ → ℕ → Bool}
    (hirr : ∀ a ∈ L, adjq a a = false) (hne : L ≠ []) :
    1 ≤ chromatic L adjq := by
  unfold chromatic
  rw [dif_pos (colorableN_length hirr)]
  refine (Nat.find_pos _).mpr ?_
  rintro ⟨f, -⟩
  have hlen : 0 < L.length := List.length_pos.mpr hne
  exact (f ⟨0, hlen⟩).elim0

theorem flatten_filter_nonempty (parts : List (List ℕ)) :
    (parts.filter (fun G => !G.isEmpty)).flatten = parts.flatten := by
  induction parts with
  | nil => rfl
  | cons G ps ih =>
    cases G with
    | nil => simpa using ih
    | cons x t => simp [List.filter_cons, ih]

theorem cover_colorable {L : List ℕ} {adjq : ℕ → ℕ → Bool}
    (hnd : L.Nodup)
    (hsym : ∀ a ∈ L, ∀ b ∈ L, adjq a b = adjq b a)
    (hirr : ∀ a ∈ L, adjq a a = false)
    {parts : List (List ℕ)} (hcov : IndepCover L adjq parts) :
    ColorableN L adjq (nonemptyCount parts) := by
  have hidx : ∀ i : Fin L.length,
      (parts.filter (fun G => !G.isEmpty)).findIdx
        (fun G => G.contains (L.get i)) <
        (parts.filter (fun G => !G.isEmpty)).length := by
    intro i
    apply List.findIdx_lt_length_of_exists
    have hmem : L.get i ∈ (parts.filter (fun G => !G.isEmpty)).flatten := by
      rw [flatten_filter_nonempty]
      exact hcov.1.mem_iff.mpr (L.get_mem _ _)
    obtain ⟨G, hG, hmemG⟩ := List.mem_flatten.mp hmem
    exact ⟨G, hG, by rw [contains_eq_decide_mem]; simpa using hmemG⟩
  refine ⟨fun i => ⟨_, hidx i⟩, fun i j hadj he => ?_⟩
  by_cases hij : i = j
  · subst hij
    unfold compAdj at hadj
    rw [List.getD_eq_getElem L 0 i.isLt] at hadj
    rw [hirr _ (List.getElem_mem _)] at hadj
    cases hadj
  · have hvals := congrArg Fin.val he
    simp only at hvals
    have hGi : ((parts.filter (fun G => !G.isEmpty)).get
        ⟨(parts.filter (fun G => !G.isEmpty)).findIdx
          (fun G => G.contains (L.get i)), hidx i⟩).contains (L.get i) = true :=
      List.findIdx_get
    have hGj : ((parts.filter (fun G => !G.isEmpty)).get
        ⟨(parts.filter (fun G => !G.isEmpty)).findIdx
          (fun G => G.contains (L.get j)), hidx j⟩).contains (L.get j) = true :=
      List.findIdx_get
    have hGG : (parts.filter (fun G => !G.isEmpty)).get
        ⟨(parts.filter (fun G => !G.isEmpty)).findIdx
          (fun G => G.contains (L.get i)), hidx i⟩ =
        (parts.filter (fun G => !G.isEmpty)).get
        ⟨(parts.filter (fun G => !G.isEmpty)).findIdx
          (fun G => G.contains (L.get j)), hidx j⟩ :=
      congrArg _ (Fin.ext hvals)
    rw [hGG] at hGi
    have haG : L.get i ∈ (parts.filter (fun G => !G.isEmpty)).get
        ⟨(parts.filter (fun G => !G.isEmpty)).findIdx
          (fun G => G.contains (L.get j)), hidx j⟩ := by
      rw [contains_eq_decide_mem] at hGi
      simpa using hGi
    have hbG : L.get j ∈ (parts.filter (fun G => !G.isEmpty)).get
        ⟨(parts.filter (fun G => !G.isEmpty)).findIdx
          (fun G => G.contains (L.get j)), hidx j⟩ := by
      rw [contains_eq_decide_mem] at hGj
      simpa using hGj
    have hGparts : (parts.filter (fun G => !G.isEmpty)).get
        ⟨(parts.filter (fun G => !G.isEmpty)).findIdx
          (fun G => G.contains (L.get j)), hidx j⟩ ∈ parts := by
      have hm := List.get_mem (parts.filter (fun G => !G.isEmpty)) _ (hidx j)
      exact (List.mem_filter.mp hm).1
    have hGL : ∀ x ∈ (parts.filter (fun G => !G.isEmpty)).get
        ⟨(parts.filter (fun G => !G.isEmpty)).findIdx
          (fun G => G.contains (L.get j)), hidx j⟩, x ∈ L := by
      intro x hx
      exact hcov.1.mem_iff.mp (List.mem_flatten_of_mem hGparts hx)
    have hne2 : L.get i ≠ L.get j := by
      intro hc
      exact hij (hnd.get_inj_iff.mp hc)
    have hfalse := indep_pair
      (fun a ha b hb => hsym a (hGL a ha) b (hGL b hb))
      (hcov.2 _ hGparts) _ haG _ hbG hne2
    unfold compAdj at hadj
    rw [List.getD_eq_getElem L 0 i.isLt, List.getD_eq_getElem L 0 j.isLt] at hadj
    rw [← List.get_eq_getElem, ← List.get_eq_getElem] at hadj
    rw [hfalse] at hadj
    cases hadj

/-- Splitting a list into the color classes of a bounded coloring yields a
permutation of the list. -/
theorem classes_perm (g : ℕ → ℕ) :
    ∀ (c : ℕ) (M : List ℕ), (∀ l ∈ M, g l < c) →
      ((List.range c).map
        (fun col => M.filter (fun l => decide (g l = col)))).flatten.Perm M := by
  intro c
  induction c with
  | zero =>
    intro M hg
    have hM : M = [] := by
      cases M with
      | nil => rfl
      | cons a t => exact absurd (hg a (List.mem_cons_self _ _)) (Nat.not_lt_zero _)
    subst hM
    simp
  | succ c ih =>
    intro M hg
    rw [List.range_succ, List.map_append, List.flatten_append]
    simp only [List.map_cons, List.map_nil, List.flatten_cons, List.flatten_nil,
      List.append_nil]
    have hM2 : ∀ l ∈ M.filter (fun l => !(decide (g l = c))), g l < c := by
      intro l hl
      have h1 := List.mem_filter.mp hl
      have h2 := hg l h1.1
      have h3 : ¬(g l = c) := by simpa using h1.2
      omega
    have hmap : (List.range c).map
        (fun col => M.filter (fun l => decide (g l = col))) =
        (List.range c).map (fun col =>
          (M.filter (fun l => !(decide (g l = c)))).filter
            (fun l => decide (g l = col))) := by
      apply List.map_congr_left
      intro col hcol
      rw [List.filter_filter]
      apply List.filter_congr
      intro x _
      by_cases hx : g x = col
      · have hcc : col < c := List.mem_range.mp hcol
        simp only [hx, decide_eq_true_eq]
        have hxc : ¬(col = c) := by omega
        simp [hxc]
      · simp [hx]
    rw [hmap]
    have hperm1 := ih (M.filter (fun l => !(decide (g l = c)))) hM2
    refine (hperm1.append_right _).trans ?_
    refine List.Perm.trans List.perm_append_comm ?_
    exact List.filter_append_perm _ M

theorem labelColor_lt {L : List ℕ} {c : ℕ} (f : Fin L.length → Fin c) :
    ∀ l ∈ L, labelColor L f l < c := by
  intro l hl
  unfold labelColor
  rw [dif_pos hl]
  exact (f _).isLt

theorem colorable_cover {L : List ℕ} {adjq : ℕ → ℕ → Bool} (hnd : L.Nodup)
    {c : ℕ} (h : ColorableN L adjq c) :
    ∃ parts, IndepCover L adjq parts ∧ L.length ≤ coverScore parts + c := by
  obtain ⟨f, hf⟩ := h
  refine ⟨(List.range c).map
    (fun col => L.filter (fun l => decide (labelColor L f l = col))), ⟨?_, ?_⟩, ?_⟩
  · exact classes_perm (labelColor L f) c L (labelColor_lt f)
  · intro G hG
    rw [List.mem_map] at hG
    obtain ⟨col, -, rfl⟩ := hG
    apply (hnd.filter _).pairwise_of_forall_ne
    intro a ha b hb hab
    rw [List.mem_filter] at ha hb
    have haL := ha.1
    have hbL := hb.1
    have hcola : labelColor L f a = col := by simpa using ha.2
    have hcolb : labelColor L f b = col := by simpa using hb.2
    by_contra hc
    have hadj : adjq a b = true := by
      cases hval : adjq a b
      · exact absurd hval hc
      · rfl
    have hia : L.indexOf a < L.length := List.indexOf_lt_length.mpr haL
    have hib : L.indexOf b < L.length := List.indexOf_lt_length.mpr hbL
    have hcomp : compAdj L adjq (L.indexOf a) (L.indexOf b) = true := by
      unfold compAdj
      rw [List.getD_eq_get L 0 hia, List.getD_eq_get L 0 hib]
      rw [List.indexOf_get hia, List.indexOf_get hib]
      exact hadj
    have hfne := hf ⟨L.indexOf a, hia⟩ ⟨L.indexOf b, hib⟩ hcomp
    apply hfne
    apply Fin.ext
    have h1 : labelColor L f a = (f ⟨L.indexOf a, hia⟩).val := by
      unfold labelColor
      rw [dif_pos haL]
    have h2 : labelColor L f b = (f ⟨L.indexOf b, hib⟩).val := by
      unfold labelColor
      rw [dif_pos hbL]
    rw [← h1, ← h2, hcola, hcolb]
  · have hsc := coverScore_add_nonemptyCount ((List.range c).map
      (fun col => L.filter (fun l => decide (labelColor L f l = col))))
    have hperm := classes_perm (labelColor L f) c L (labelColor_lt f)
    rw [hperm.length_eq] at hsc
    have hcnt := nonemptyCount_le_length ((List.range c).map
      (fun col => L.filter (fun l => decide (labelColor L f l = col))))
    rw [List.length_map, List.length_range] at hcnt
    omega

/-- The maximum cover score plus the chromatic number is the number of
quotient vertices: the two qi-number framings of the spec agree. -/
theorem isQiMax_add_chromatic {L : List ℕ} {adjq : ℕ → ℕ → Bool} {q : ℕ}
    (hnd : L.Nodup)
    (hsym : ∀ a ∈ L, ∀ b ∈ L, adjq a b = adjq b a)
    (hirr : ∀ a ∈ L, adjq a a = false)
    (h : IsQiMax L adjq q) : q + chromatic L adjq = L.length := by
  obtain ⟨⟨parts0, hcov0, hsc0⟩, hmax⟩ := h
  have h1 : ColorableN L adjq (nonemptyCount parts0) :=
    cover_colorable hnd hsym hirr hcov0
  have h2 : chromatic L adjq ≤ nonemptyCount parts0 := chromatic_le hirr h1
  have h3 : coverScore parts0 + nonemptyCount parts0 = L.length :=
    coverScore_le_of_cover hcov0
  obtain ⟨parts1, hcov1, hsc1⟩ := colorable_cover hnd (chromatic_spec hirr)
  have h4 := hmax parts1 hcov1
  omega

/-- The plain backtracking search plus the chromatic number equals the
number of quotient vertices. -/
theorem search_add_chromatic {labels : List ℕ} {adjq : ℕ → ℕ → Bool}
    (hnd : labels.Nodup)
    (hsym : ∀ a ∈ labels, ∀ b ∈ labels, adjq a b = adjq b a)
    (hirr : ∀ a ∈ labels, adjq a a = false) :
    findOptimalQiF adjq labels (labels.length + 1) [] 0 0 +
      chromatic labels adjq = labels.length :=
  isQiMax_add_chromatic hnd hsym hirr (findOptimalQiF_isQiMax hnd hsym)

theorem getNumBlocks_pos {p : List ℕ}
    (hrange : ∀ l ∈ p, l < MAX_VERTICES) (hne : p ≠ []) :
    1 ≤ getNumBlocks p := by
  rw [getNumBlocks_eq_card hrange]
  rw [Nat.succ_le_iff, Finset.card_pos]
  cases p with
  | nil => exact absurd rfl hne
  | cons a t => exact ⟨a, by simp⟩

theorem firstOccurrences_ne_nil {p : List ℕ}
    (hrange : ∀ l ∈ p, l < MAX_VERTICES) (hne : p ≠ []) :
    firstOccurrences p ≠ [] := by
  intro h0
  have h1 := getNumBlocks_eq_length hrange
  rw [h0] at h1
  have h2 := getNumBlocks_pos hrange hne
  rw [h1] at h2
  simp at h2

/-- Proves `calculateQiNumberInternalExhaustive` computes exactly
`k - χ(Q)` (stated additively): the exact search is correct. -/
theorem exhaustive_add_chromatic {adj : ℕ → ℕ → Bool} {p : List ℕ}
    (hrange : ∀ l ∈ p, l < MAX_VERTICES) (hne : p ≠ []) :
    calculateQiNumberInternalExhaustive adj p +
      chromatic (firstOccurrences p) (buildQuotientAdj p.length adj p) =
      getNumBlocks p := by
  have hL := getNumBlocks_eq_length hrange
  have hnd := firstOccurrences_nodup p
  have hsym : ∀ a ∈ firstOccurrences p, ∀ b ∈ firstOccurrences p,
      buildQuotientAdj p.length adj p a b = buildQuotientAdj p.length adj p b a :=
    fun a _ b _ => buildQuotientAdj_symm _ _ _ a b
  have hirr : ∀ a ∈ firstOccurrences p,
      buildQuotientAdj p.length adj p a a = false :=
    fun a _ => buildQuotientAdj_irrefl _ _ _ a
  unfold calculateQiNumberInternalExhaustive
  by_cases hk : getNumBlocks p = 1
  · rw [if_pos hk]
    have hlen1 : (firstOccurrences p).length = 1 := by rw [← hL, hk]
    have hc1 : chromatic (firstOccurrences p)
        (buildQuotientAdj p.length adj p) ≤ 1 :=
      hlen1 ▸ chromatic_le_length hirr
    have hc2 := chromatic_pos hirr (firstOccurrences_ne_nil hrange hne)
    omega
  · rw [if_neg hk]
    have h1 := search_add_chromatic hnd hsym hirr
    rw [hL]
    exact h1

/-! ## The early-stopping search -/

theorem qiLoopE_mono {adjq : ℕ → ℕ → Bool} {treq start : ℕ}
    {rest : List ℕ} {search : List ℕ → ℕ → ℕ → ℕ} {used : List ℕ}
    {current : ℕ} (hs : ∀ u c m, m ≤ search u c m) :
    ∀ (ss : List ℕ) (m : ℕ),
      m ≤ qiLoopE adjq treq start rest search used current ss m := by
  intro ss
  induction ss with
  | nil => intro m; simp [qiLoopE]
  | cons s ss ih =>
    intro m
    simp only [qiLoopE]
    by_cases ht : treq ≤ m
    · rw [if_pos ht]
    · rw [if_neg ht]
      cases hbis : buildIndepSet adjq rest s [start] with
      | none => exact ih m
      | some iset => exact le_trans (hs _ _ m) (ih _)

theorem findOptimalQiE_mono {adjq : ℕ → ℕ → Bool} {labels : List ℕ}
    {treq : ℕ} :
    ∀ (fuel : ℕ) (used : List ℕ) (current max_qi : ℕ),
      max_qi ≤ findOptimalQiE adjq labels treq fuel used current max_qi := by
  intro fuel
  induction fuel with
  | zero => intro used current max_qi; simp [findOptimalQiE]
  | succ fuel ih =>
    intro used current max_qi
    simp only [findOptimalQiE]
    by_cases ht : treq ≤ max_qi
    · rw [if_pos ht]
    · rw [if_neg ht]
      cases hu : labels.filter (fun l => !(used.contains l)) with
      | nil => exact le_max_right _ _
      | cons start rest => exact qiLoopE_mono (fun u c m => ih u c m) _ max_qi

theorem qiLoopE_le {adjq : ℕ → ℕ → Bool} {treq start : ℕ}
    {rest : List ℕ} {search : List ℕ → ℕ → ℕ → ℕ} {used : List ℕ}
    {current M : ℕ}
    (hstep : ∀ s iset m, buildIndepSet adjq rest s [start] = some iset →
      m ≤ M → search (iset ++ used) (current + contribution iset) m ≤ M) :
    ∀ (ss : List ℕ) (m : ℕ), m ≤ M →
      qiLoopE adjq treq start rest search used current ss m ≤ M := by
  intro ss
  induction ss with
  | nil => intro m hm; simpa [qiLoopE] using hm
  | cons s ss ih =>
    intro m hm
    simp only [qiLoopE]
    by_cases ht : treq ≤ m
    · rw [if_pos ht]; exact hm
    · rw [if_neg ht]
      cases hbis : buildIndepSet adjq rest s [start] with
      | none => exact ih m hm
      | some iset => exact ih _ (hstep s iset m hbis hm)

theorem findOptimalQiE_le {adjq : ℕ → ℕ → Bool} {labels : List ℕ}
    (hnd : labels.Nodup)
    (hsym : ∀ a ∈ labels, ∀ b ∈ labels, adjq a b = adjq b a) {treq : ℕ} :
    ∀ (fuel : ℕ) (used : List ℕ) (current max_qi B : ℕ),
      (unusedL labels used).length < fuel →
      (∀ parts, IndepCover (unusedL labels used) adjq parts →
        coverScore parts ≤ B) →
      findOptimalQiE adjq labels treq fuel used current max_qi ≤
        max max_qi (current + B) := by
  intro fuel
  induction fuel with
  | zero =>
    intro used current max_qi B hfuel _
    exact absurd hfuel (Nat.not_lt_zero _)
  | succ fuel ih =>
    intro used current max_qi B hfuel hB
    simp only [findOptimalQiE]
    by_cases ht : treq ≤ max_qi
    · rw [if_pos ht]; exact le_max_left _ _
    · rw [if_neg ht]
      cases hu : labels.filter (fun l => !(used.contains l)) with
      | nil => exact (by omega : max current max_qi ≤ max max_qi (current + B))
      | cons start rest =>
        have hu2 : unusedL labels used = start :: rest := hu
        refine qiLoopE_le ?_ _ max_qi (le_max_left _ _)
        intro s iset m hbis hm
        obtain ⟨hext, hcontrib, hdec⟩ := iset_facts hnd hsym hu2 hbis
        have hsing := singleton_cover (unusedL labels (iset ++ used)) adjq
        have hcB : contribution iset ≤ B := by
          have h1 := hB _ (hext _ hsing.1)
          rw [coverScore_cons, hsing.2] at h1
          omega
        have hB2 : ∀ parts,
            IndepCover (unusedL labels (iset ++ used)) adjq parts →
            coverScore parts ≤ B - contribution iset := by
          intro parts hp
          have h1 := hB _ (hext parts hp)
          rw [coverScore_cons] at h1
          omega
        have hfuel2 : (unusedL labels (iset ++ used)).length < fuel := by
          rw [unusedL_append] at hdec ⊢
          rw [hu2] at hdec hfuel ⊢
          omega
        have hrec := ih (iset ++ used) (current + contribution iset) m
          (B - contribution iset) hfuel2 hB2
        have heq : current + contribution iset + (B - contribution iset) =
            current + B := by omega
        rw [heq] at hrec
        omega

theorem qiLoopE_min {adjq : ℕ → ℕ → Bool} {treq start : ℕ}
    {rest : List ℕ} {searchF searchE : List ℕ → ℕ → ℕ → ℕ} {used : List ℕ}
    {current : ℕ}
    (hcomp : ∀ u c mF mE, min treq mF ≤ mE →
      min treq (searchF u c mF) ≤ searchE u c mE) :
    ∀ (ss : List ℕ) (mF mE : ℕ), min treq mF ≤ mE →
      min treq (qiLoop adjq start rest searchF used current ss mF) ≤
        qiLoopE adjq treq start rest searchE used current ss mE := by
  intro ss
  induction ss with
  | nil => intro mF mE hm; simpa [qiLoop, qiLoopE] using hm
  | cons s ss ih =>
    intro mF mE hm
    simp only [qiLoop, qiLoopE]
    by_cases ht : treq ≤ mE
    · rw [if_pos ht]
      have h1 : min treq (qiLoop adjq start rest searchF used current ss
          (match buildIndepSet adjq rest s [start] with
            | some iset =>
              searchF (iset ++ used) (current + contribution iset) mF
            | none => mF)) ≤ treq := min_le_left _ _
      omega
    · rw [if_neg ht]
      cases hbis : buildIndepSet adjq rest s [start] with
      | none => exact ih mF mE hm
      | some iset => exact ih _ _ (hcomp _ _ mF mE hm)

theorem findOptimalQiE_min {adjq : ℕ → ℕ → Bool} {labels : List ℕ}
    {treq : ℕ} :
    ∀ (fuel : ℕ) (used : List ℕ) (current mF mE : ℕ),
      min treq mF ≤ mE →
      min treq (findOptimalQiF adjq labels fuel used current mF) ≤
        findOptimalQiE adjq labels treq fuel used current mE := by
  intro fuel
  induction fuel with
  | zero =>
    intro used current mF mE hm
    simpa [findOptimalQiF, findOptimalQiE] using hm
  | succ fuel ih =>
    intro used current mF mE hm
    simp only [findOptimalQiF, findOptimalQiE]
    by_cases ht : treq ≤ mE
    · rw [if_pos ht]
      exact le_trans (min_le_left _ _) ht
    · rw [if_neg ht]
      cases hu : labels.filter (fun l => !(used.contains l)) with
      | nil =>
        show min treq (max current mF) ≤ max current mE
        omega
      | cons start rest =>
        exact qiLoopE_min (fun u c mF2 mE2 hm2 => ih u c mF2 mE2 hm2) _ mF mE hm

theorem qiLoopE_eq {adjq : ℕ → ℕ → Bool} {treq start : ℕ}
    {rest : List ℕ} {searchF searchE : List ℕ → ℕ → ℕ → ℕ} {used : List ℕ}
    {current : ℕ}
    (hmonoF : ∀ u c m, m ≤ searchF u c m)
    (heq : ∀ u c m, searchF u c m < treq → searchE u c m = searchF u c m) :
    ∀ (ss : List ℕ) (m : ℕ),
      qiLoop adjq start rest searchF used current ss m < treq →
      qiLoopE adjq treq start rest searchE used current ss m =
        qiLoop adjq start rest searchF used current ss m := by
  intro ss
  induction ss with
  | nil => intro m _; simp [qiLoop, qiLoopE]
  | cons s ss ih =>
    intro m hlt
    have hm0 : m ≤ qiLoop adjq start rest searchF used current (s :: ss) m :=
      qiLoop_mono hmonoF _ m
    have ht : ¬(treq ≤ m) := by omega
    cases hbis : buildIndepSet adjq rest s [start] with
    | none =>
      have hunf : qiLoop adjq start rest searchF used current (s :: ss) m =
          qiLoop adjq start rest searchF used current ss m := by
        simp only [qiLoop]
        rw [hbis]
      rw [hunf] at hlt
      calc qiLoopE adjq treq start rest searchE used current (s :: ss) m
          = qiLoopE adjq treq start rest searchE used current ss m := by
            simp only [qiLoopE]
            rw [if_neg ht, hbis]
        _ = qiLoop adjq start rest searchF used current ss m := ih m hlt
        _ = qiLoop adjq start rest searchF used current (s :: ss) m :=
            hunf.symm
    | some iset =>
      have hunf : qiLoop adjq start rest searchF used current (s :: ss) m =
          qiLoop adjq start rest searchF used current ss
            (searchF (iset ++ used) (current + contribution iset) m) := by
        simp only [qiLoop]
        rw [hbis]
      rw [hunf] at hlt
      have h2 : searchF (iset ++ used) (current + contribution iset) m ≤
          qiLoop adjq start rest searchF used current ss
            (searchF (iset ++ used) (current + contribution iset) m) :=
        qiLoop_mono hmonoF ss _
      have hFlt : searchF (iset ++ used) (current + contribution iset) m <
          treq := by omega
      calc qiLoopE adjq treq start rest searchE used current (s :: ss) m
          = qiLoopE adjq treq start rest searchE used current ss
              (searchE (iset ++ used) (current + contribution iset) m) := by
            simp only [qiLoopE]
            rw [if_neg ht, hbis]
        _ = qiLoopE adjq treq start rest searchE used current ss
              (searchF (iset ++ used) (current + contribution iset) m) := by
            rw [heq _ _ _ hFlt]
        _ = qiLoop adjq start rest searchF used current ss
              (searchF (iset ++ used) (current + contribution iset) m) :=
            ih _ hlt
        _ = qiLoop adjq start rest searchF used current (s :: ss) m :=
            hunf.symm

theorem findOptimalQiE_eq {adjq : ℕ → ℕ → Bool} {labels : List ℕ}
    {treq : ℕ} :
    ∀ (fuel : ℕ) (used : List ℕ) (current max_qi : ℕ),
      findOptimalQiF adjq labels fuel used current max_qi < treq →
      findOptimalQiE adjq labels treq fuel used current max_qi =
        findOptimalQiF adjq labels fuel used current max_qi := by
  intro fuel
  induction fuel with
  | zero => intro used current max_qi _; simp [findOptimalQiF, findOptimalQiE]
  | succ fuel ih =>
    intro used current max_qi hlt
    have hm0 : max_qi ≤ findOptimalQiF adjq labels (fuel + 1) used current
        max_qi := findOptimalQiF_mono _ _ _ _
    have ht : ¬(treq ≤ max_qi) := by omega
    cases hu : labels.filter (fun l => !(used.contains l)) with
    | nil =>
      calc findOptimalQiE adjq labels treq (fuel + 1) used current max_qi
          = max current max_qi := by
            simp only [findOptimalQiE]
            rw [if_neg ht, hu]
        _ = findOptimalQiF adjq labels (fuel + 1) used current max_qi := by
            simp only [findOptimalQiF]
            rw [hu]
    | cons start rest =>
      have hunf : findOptimalQiF adjq labels (fuel + 1) used current max_qi =
          qiLoop adjq start rest (findOptimalQiF adjq labels fuel) used current
            (List.range (2 ^ rest.length)) max_qi := by
        simp only [findOptimalQiF]
        rw [hu]
      rw [hunf] at hlt
      calc findOptimalQiE adjq labels treq (fuel + 1) used current max_qi
          = qiLoopE adjq treq start rest (findOptimalQiE adjq labels treq fuel)
              used current (List.range (2 ^ rest.length)) max_qi := by
            simp only [findOptimalQiE]
            rw [if_neg ht, hu]
        _ = qiLoop adjq start rest (findOptimalQiF adjq labels fuel) used
              current (List.range (2 ^ rest.length)) max_qi :=
            qiLoopE_eq (fun u c m => findOptimalQiF_mono fuel u c m)
              (fun u c m h => ih u c m h) _ max_qi hlt
        _ = findOptimalQiF adjq labels (fuel + 1) used current max_qi :=
            hunf.symm

theorem cover_score_le_sub_chromatic {L : List ℕ} {adjq : ℕ → ℕ → Bool}
    (hnd : L.Nodup)
    (hsym : ∀ a ∈ L, ∀ b ∈ L, adjq a b = adjq b a)
    (hirr : ∀ a ∈ L, adjq a a = false)
    {parts : List (List ℕ)} (hcov : IndepCover L adjq parts) :
    coverScore parts ≤ L.length - chromatic L adjq := by
  have h1 := cover_colorable hnd hsym hirr hcov
  have h2 := chromatic_le hirr h1
  have h3 := coverScore_le_of_cover hcov
  omega

/-- The early-stopping search never exceeds the true qi-number
`|labels| - χ` (soundness of its результат). -/
theorem early_search_le {labels : List ℕ} {adjq : ℕ → ℕ → Bool} {treq : ℕ}
    (hnd : labels.Nodup)
    (hsym : ∀ a ∈ labels, ∀ b ∈ labels, adjq a b = adjq b a)
    (hirr : ∀ a ∈ labels, adjq a a = false) :
    findOptimalQiE adjq labels treq (labels.length + 1) [] 0 0 ≤
      labels.length - chromatic labels adjq := by
  have h : findOptimalQiE adjq labels treq (labels.length + 1) [] 0 0 ≤
      max 0 (0 + (labels.length - chromatic labels adjq)) :=
    findOptimalQiE_le hnd hsym (labels.length + 1) [] 0 0
      (labels.length - chromatic labels adjq)
      (by rw [unusedL_nil]; omega)
      (by
        intro parts hcov
        rw [unusedL_nil] at hcov
        exact cover_score_le_sub_chromatic hnd hsym hirr hcov)
  omega

/-- The early-stopping search clears every threshold at most the true
qi-number, and computes the true qi-number exactly whenever the threshold
exceeds it (the search then runs to completion). -/
theorem early_search_correct {labels : List ℕ} {adjq : ℕ → ℕ → Bool}
    (treq : ℕ) (hnd : labels.Nodup)
    (hsym : ∀ a ∈ labels, ∀ b ∈ labels, adjq a b = adjq b a)
    (hirr : ∀ a ∈ labels, adjq a a = false) :
    (treq ≤ labels.length - chromatic labels adjq →
      treq ≤ findOptimalQiE adjq labels treq (labels.length + 1) [] 0 0) ∧
    (labels.length - chromatic labels adjq < treq →
      findOptimalQiE adjq labels treq (labels.length + 1) [] 0 0 =
        labels.length - chromatic labels adjq) := by
  have hF := search_add_chromatic hnd hsym hirr
  have hchi := chromatic_le_length hirr
  have hFeq : findOptimalQiF adjq labels (labels.length + 1) [] 0 0 =
      labels.length - chromatic labels adjq := by omega
  constructor
  · intro htreq
    have hmin : min treq (findOptimalQiF adjq labels (labels.length + 1) [] 0 0)
        ≤ findOptimalQiE adjq labels treq (labels.length + 1) [] 0 0 :=
      findOptimalQiE_min (labels.length + 1) [] 0 0 0 (by omega)
    rw [hFeq] at hmin
    omega
  · intro htreq
    have heq : findOptimalQiE adjq labels treq (labels.length + 1) [] 0 0 =
        findOptimalQiF adjq labels (labels.length + 1) [] 0 0 :=
      findOptimalQiE_eq (labels.length + 1) [] 0 0 (by omega)
    omega

/-! ## Soundness of the oracle-backed qi computations -/

/-- The no-threshold computation never exceeds the true qi-number
`k - χ(Q)`, provided the oracle's color counts come from proper
colorings. -/
theorem calcQiInternal_le (oracle : Oracle) (adj : ℕ → ℕ → Bool)
    (p : List ℕ) (hrange : ∀ l ∈ p, l < MAX_VERTICES) (hne : p ≠ [])
    (horacle : ∀ c, oracle (firstOccurrences p).length
        (compAdj (firstOccurrences p) (buildQuotientAdj p.length adj p)) =
        some c →
        ColorableN (firstOccurrences p) (buildQuotientAdj p.length adj p) c) :
    calcQiInternal oracle adj p ≤ (getNumBlocks p : ℤ) -
      (chromatic (firstOccurrences p) (buildQuotientAdj p.length adj p) : ℤ) := by
  have hL := getNumBlocks_eq_length hrange
  have hirr : ∀ a ∈ firstOccurrences p,
      buildQuotientAdj p.length adj p a a = false :=
    fun a _ => buildQuotientAdj_irrefl _ _ _ a
  have hchi := chromatic_le_length hirr
  unfold calcQiInternal
  by_cases hk : getNumBlocks p = 1
  · rw [if_pos hk]
    rw [hk]
    have h1 : chromatic (firstOccurrences p)
        (buildQuotientAdj p.length adj p) ≤ 1 := by omega
    omega
  · rw [if_neg hk]
    cases ho : oracle (firstOccurrences p).length
        (compAdj (firstOccurrences p) (buildQuotientAdj p.length adj p)) with
    | some c =>
      show (getNumBlocks p : ℤ) - (c : ℤ) ≤ _
      have hchic := chromatic_le hirr (horacle c ho)
      omega
    | none =>
      show (calculateQiNumberInternalExhaustive adj p : ℤ) ≤ _
      have hex : calculateQiNumberInternalExhaustive adj p +
          chromatic (firstOccurrences p) (buildQuotientAdj p.length adj p) =
          getNumBlocks p := exhaustive_add_chromatic hrange hne
      omega

/-- The threshold computation never exceeds the true qi-number when it
does not return the undetermined sentinel `-1`. -/
theorem calcQiInternalT_le (oracle : Oracle) (adj : ℕ → ℕ → Bool)
    (p : List ℕ) (t : ℤ)
    (hrange : ∀ l ∈ p, l < MAX_VERTICES) (hne : p ≠ [])
    (horacle : ∀ c, oracle (firstOccurrences p).length
        (compAdj (firstOccurrences p) (buildQuotientAdj p.length adj p)) =
        some c →
        ColorableN (firstOccurrences p) (buildQuotientAdj p.length adj p) c)
    (hval : calcQiInternalT oracle adj p t ≠ -1) :
    calcQiInternalT oracle adj p t ≤ (getNumBlocks p : ℤ) -
      (chromatic (firstOccurrences p) (buildQuotientAdj p.length adj p) : ℤ) := by
  have hL := getNumBlocks_eq_length hrange
  have hnd := firstOccurrences_nodup p
  have hsym : ∀ a ∈ firstOccurrences p, ∀ b ∈ firstOccurrences p,
      buildQuotientAdj p.length adj p a b = buildQuotientAdj p.length adj p b a :=
    fun a _ b _ => buildQuotientAdj_symm _ _ _ a b
  have hirr : ∀ a ∈ firstOccurrences p,
      buildQuotientAdj p.length adj p a a = false :=
    fun a _ => buildQuotientAdj_irrefl _ _ _ a
  have hchi := chromatic_le_length hirr
  unfold calcQiInternalT at hval ⊢
  by_cases hk : getNumBlocks p = 1
  · rw [if_pos hk]
    rw [hk]
    have h1 : chromatic (firstOccurrences p)
        (buildQuotientAdj p.length adj p) ≤ 1 := by omega
    omega
  · rw [if_neg hk] at hval ⊢
    by_cases hbig : 15 < getNumBlocks p
    · rw [if_pos hbig] at hval ⊢
      cases ho : oracle (firstOccurrences p).length
          (compAdj (firstOccurrences p) (buildQuotientAdj p.length adj p)) with
      | some c =>
        simp only [ho] at hval
        show (if t ≤ (getNumBlocks p : ℤ) - (c : ℤ) then
          (getNumBlocks p : ℤ) - (c : ℤ) else -1) ≤ _
        have hchic := chromatic_le hirr (horacle c ho)
        by_cases hts : t ≤ (getNumBlocks p : ℤ) - (c : ℤ)
        · rw [if_pos hts]
          omega
        · rw [if_neg hts] at hval
          exact absurd rfl hval
      | none =>
        simp only [ho] at hval
        exact absurd rfl hval
    · rw [if_neg hbig] at hval ⊢
      by_cases ht0 : t ≤ 0
      · rw [if_pos ht0]
        exact calcQiInternal_le oracle adj p hrange hne horacle
      · rw [if_neg ht0]
        have hle : findOptimalQiE (buildQuotientAdj p.length adj p)
            (firstOccurrences p) t.toNat
            ((firstOccurrences p).length + 1) [] 0 0 ≤
            (firstOccurrences p).length -
              chromatic (firstOccurrences p) (buildQuotientAdj p.length adj p) :=
          early_search_le hnd hsym hirr
        omega

/-! ## Facts about the merge operations and renormalization -/

theorem renormalizeLabels_length (p : List ℕ) :
    (renormalizeLabels p).length = p.length := by
  unfold renormalizeLabels
  exact List.length_map _ _

theorem toFinset_map_eq_image (f : ℕ → ℕ) (l : List ℕ) :
    (l.map f).toFinset = l.toFinset.image f := by
  ext x
  simp [List.mem_toFinset, List.mem_map, Finset.mem_image]

theorem renormalizeLabels_card (p : List ℕ) :
    (renormalizeLabels p).toFinset.card = p.toFinset.card := by
  unfold renormalizeLabels
  rw [toFinset_map_eq_image]
  apply Finset.card_image_of_injOn
  intro a ha b hb hab
  rw [Finset.mem_coe, List.mem_toFinset] at ha hb
  have haf : a ∈ firstOccurrences p := mem_firstOccurrences.mpr ha
  have hbf : b ∈ firstOccurrences p := mem_firstOccurrences.mpr hb
  exact (List.indexOf_inj haf hbf).mp hab

theorem renormalizeLabels_lt (p : List ℕ) :
    ∀ x ∈ renormalizeLabels p, x < p.toFinset.card := by
  intro x hx
  unfold renormalizeLabels at hx
  rw [List.mem_map] at hx
  obtain ⟨l, hl, rfl⟩ := hx
  rw [← firstOccurrences_length]
  exact List.indexOf_lt_length.mpr (mem_firstOccurrences.mpr hl)

theorem relabel_toFinset {p : List ℕ} {b1 b2 : ℕ} (h1 : b1 ∈ p)
    (hne : b1 ≠ b2) :
    (p.map (fun l => if l = b2 then b1 else l)).toFinset =
      p.toFinset.erase b2 := by
  rw [toFinset_map_eq_image]
  ext x
  rw [Finset.mem_image, Finset.mem_erase]
  constructor
  · rintro ⟨a, ha, rfl⟩
    rw [List.mem_toFinset] at ha
    by_cases ha2 : a = b2
    · rw [if_pos ha2]
      exact ⟨hne, List.mem_toFinset.mpr h1⟩
    · rw [if_neg ha2]
      exact ⟨ha2, List.mem_toFinset.mpr ha⟩
  · rintro ⟨hx2, hx⟩
    rw [List.mem_toFinset] at hx
    exact ⟨x, List.mem_toFinset.mpr hx, by rw [if_neg hx2]⟩

/-- Core of the C5 claims: merging one used block label into another,
distinct used label and renormalizing keeps the vertex list and drops
exactly one block. -/
theorem merge_renorm_core {p : List ℕ} {b1 b2 : ℕ}
    (hrange : ∀ l ∈ p, l < MAX_VERTICES)
    (h1 : b1 ∈ p) (h2 : b2 ∈ p) (hne : b1 ≠ b2) :
    (renormalizeLabels (p.map (fun l => if l = b2 then b1 else l))).length =
      p.length ∧
    getNumBlocks (renormalizeLabels
      (p.map (fun l => if l = b2 then b1 else l))) + 1 = getNumBlocks p := by
  have hq := relabel_toFinset h1 hne
  have hcard : (p.map (fun l => if l = b2 then b1 else l)).toFinset.card + 1 =
      p.toFinset.card := by
    rw [hq, Finset.card_erase_of_mem (List.mem_toFinset.mpr h2)]
    have hpos : 0 < p.toFinset.card :=
      Finset.card_pos.mpr ⟨b2, List.mem_toFinset.mpr h2⟩
    omega
  have hcard_le : (p.map (fun l => if l = b2 then b1 else l)).toFinset.card ≤
      MAX_VERTICES := by
    have hsub : (p.map (fun l => if l = b2 then b1 else l)).toFinset ⊆
        Finset.range MAX_VERTICES := by
      intro x hx
      rw [hq] at hx
      rw [Finset.mem_range]
      exact hrange x (List.mem_toFinset.mp (Finset.mem_of_mem_erase hx))
    calc (p.map (fun l => if l = b2 then b1 else l)).toFinset.card
        ≤ (Finset.range MAX_VERTICES).card := Finset.card_le_card hsub
      _ = MAX_VERTICES := Finset.card_range _
  have hrange2 : ∀ l ∈ renormalizeLabels
      (p.map (fun l => if l = b2 then b1 else l)), l < MAX_VERTICES := by
    intro l hl
    have := renormalizeLabels_lt _ l hl
    omega
  constructor
  · rw [renormalizeLabels_length, List.length_map]
  · rw [getNumBlocks_eq_card hrange2, renormalizeLabels_card,
      getNumBlocks_eq_card hrange, hcard]

/-! ## Facts about `findAllMcOperations` and the random Mc step -/

theorem findAllMcOperations_sound {adj : ℕ → ℕ → Bool} {p : List ℕ} :
    ∀ pr ∈ findAllMcOperations adj p,
      pr.1 ∈ p ∧ pr.2 ∈ p ∧ pr.1 < pr.2 ∧
        areBlocksConnectedInQuotient adj p pr.1 pr.2 = true := by
  intro pr hpr
  unfold findAllMcOperations at hpr
  rw [List.mem_flatMap] at hpr
  obtain ⟨b1, hb1, hpr⟩ := hpr
  by_cases hc : p.contains b1
  · rw [if_pos hc] at hpr
    rw [List.mem_map] at hpr
    obtain ⟨b2, hb2, rfl⟩ := hpr
    rw [List.mem_filter] at hb2
    have hcond := hb2.2
    simp only [Bool.and_eq_true, decide_eq_true_eq] at hcond
    have hm1 : b1 ∈ p := by
      rw [contains_eq_decide_mem] at hc
      simpa using hc
    have hm2 : b2 ∈ p := by
      have := hcond.1.2
      rw [contains_eq_decide_mem] at this
      simpa using this
    exact ⟨hm1, hm2, hcond.1.1, hcond.2⟩
  · rw [if_neg hc] at hpr
    cases hpr

theorem performRandomMc_cases (adj : ℕ → ℕ → Bool) (p : List ℕ) (r : ℕ) :
    (findAllMcOperations adj p = [] → performRandomMcOperation adj p r = p) ∧
    (findAllMcOperations adj p ≠ [] →
      ∃ pr ∈ findAllMcOperations adj p,
        performRandomMcOperation adj p r = performMcOperationMc p pr.1 pr.2) := by
  constructor
  · intro h
    unfold performRandomMcOperation
    rw [h]
    rfl
  · intro h
    unfold performRandomMcOperation
    have hlen : ¬((findAllMcOperations adj p).length = 0) := by
      simpa [List.length_eq_zero] using h
    rw [if_neg hlen]
    refine ⟨(findAllMcOperations adj p).getD
      (r % (findAllMcOperations adj p).length) (0, 0), ?_, rfl⟩
    have hlt : r % (findAllMcOperations adj p).length <
        (findAllMcOperations adj p).length :=
      Nat.mod_lt _ (Nat.pos_of_ne_zero hlen)
    rw [List.getD_eq_getElem _ _ hlt]
    exact List.getElem_mem _

theorem performRandomMc_subset (adj : ℕ → ℕ → Bool) (p : List ℕ) (r : ℕ) :
    ∀ l ∈ performRandomMcOperation adj p r, l ∈ p := by
  by_cases h : findAllMcOperations adj p = []
  · rw [(performRandomMc_cases adj p r).1 h]
    exact fun l hl => hl
  · obtain ⟨pr, hpr, heq⟩ := (performRandomMc_cases adj p r).2 h
    have hmem := findAllMcOperations_sound pr hpr
    rw [heq]
    unfold performMcOperationMc mergeBlocks
    by_cases hbb : pr.1 = pr.2
    · rw [if_pos hbb]
      exact fun l hl => hl
    · rw [if_neg hbb]
      intro l hl
      rw [List.mem_map] at hl
      obtain ⟨a, ha, rfl⟩ := hl
      by_cases ha2 : a = pr.2
      · rw [if_pos ha2]
        exact hmem.1
      · rw [if_neg ha2]
        exact ha

theorem reachable_labels {adj : ℕ → ℕ → Bool} {n : ℕ} {p : List ℕ}
    (h : ReachableMc adj n p) : ∀ l ∈ p, l < n := by
  induction h with
  | init =>
    intro l hl
    exact List.mem_range.mp hl
  | step p r hp ih =>
    intro l hl
    exact ih _ (performRandomMc_subset adj p r l hl)

theorem areBlocksConnected_symm {adj : ℕ → ℕ → Bool} {p : List ℕ}
    {b1 b2 : ℕ} (hadj : ∀ u v, adj u v = adj v u) :
    areBlocksConnectedInQuotient adj p b2 b1 =
      areBlocksConnectedInQuotient adj p b1 b2 := by
  unfold areBlocksConnectedInQuotient
  by_cases hbb : b1 = b2
  · subst hbb
    rfl
  · rw [if_neg hbb, if_neg (Ne.symm hbb)]
    rw [Bool.eq_iff_iff]
    simp only [List.any_eq_true, List.mem_range, Bool.and_eq_true,
      decide_eq_true_eq]
    constructor
    · rintro ⟨u, hu, h1, v, hv, h2, he⟩
      exact ⟨v, hv, h2, u, hu, h1, by rw [hadj]; exact he⟩
    · rintro ⟨u, hu, h1, v, hv, h2, he⟩
      exact ⟨v, hv, h2, u, hu, h1, by rw [hadj]; exact he⟩

theorem mem_findAllMcOperations_intro {adj : ℕ → ℕ → Bool} {p : List ℕ}
    {b1 b2 : ℕ} (h1 : b1 ∈ p) (h2 : b2 ∈ p) (hlt : b1 < b2)
    (hb2 : b2 < MAX_VERTICES)
    (hconn : areBlocksConnectedInQuotient adj p b1 b2 = true) :
    (b1, b2) ∈ findAllMcOperations adj p := by
  unfold findAllMcOperations
  rw [List.mem_flatMap]
  refine ⟨b1, List.mem_range.mpr (by omega), ?_⟩
  rw [if_pos (by rw [contains_eq_decide_mem]; simpa using h1)]
  rw [List.mem_map]
  refine ⟨b2, ?_, rfl⟩
  rw [List.mem_filter]
  refine ⟨List.mem_range.mpr hb2, ?_⟩
  simp only [Bool.and_eq_true, decide_eq_true_eq]
  exact ⟨⟨hlt, by rw [contains_eq_decide_mem]; simpa using h2⟩, hconn⟩

/-! ## Claim theorems -/

/-- C1: soundness of the PASS decision. For every graph, partition (with
in-range labels, the fatal-precondition boundary of §7) and threshold `t`,
if `calculateQiNumber(graph, t)` produces a non-sentinel value `v` with
`v ≥ t`, then the true qi-number `k - χ(Q)` of the quotient graph is also
`≥ t`; indeed every non-sentinel value it produces is `≤ k - χ(Q)` — under
the hypothesis that the coloring oracle's color counts come from proper
colorings of the quotient graph it is handed. -/
theorem qi_c1_pass_sound (oracle : Oracle) (adj : ℕ → ℕ → Bool)
    (p : List ℕ) (t : ℤ)
    (hrange : ∀ l ∈ p, l < MAX_VERTICES) (hne : p ≠ [])
    (horacle : ∀ c, oracle (firstOccurrences p).length
        (compAdj (firstOccurrences p) (buildQuotientAdj p.length adj p)) =
        some c →
        ColorableN (firstOccurrences p) (buildQuotientAdj p.length adj p) c)
    (hval : calcQiInternalT oracle adj p t ≠ -1)
    (hpass : t ≤ calcQiInternalT oracle adj p t) :
    calcQiInternalT oracle adj p t ≤ (getNumBlocks p : ℤ) -
      (chromatic (firstOccurrences p) (buildQuotientAdj p.length adj p) : ℤ) ∧
    t ≤ (getNumBlocks p : ℤ) -
      (chromatic (firstOccurrences p) (buildQuotientAdj p.length adj p) : ℤ) := by
  have h := calcQiInternalT_le oracle adj p t hrange hne horacle hval
  exact ⟨h, le_trans hpass h⟩

/-- Witness for C1: the 4-cycle with identity partition, threshold 2 and a
failing oracle takes the exact early-stopping path and passes soundly. -/
theorem qi_c1_pass_sound_witness :
    calcQiInternalT (fun _ _ => none) adjC4 [0, 1, 2, 3] 2 ≤
      (getNumBlocks [0, 1, 2, 3] : ℤ) -
      (chromatic (firstOccurrences [0, 1, 2, 3])
        (buildQuotientAdj [0, 1, 2, 3].length adjC4 [0, 1, 2, 3]) : ℤ) ∧
    (2 : ℤ) ≤ (getNumBlocks [0, 1, 2, 3] : ℤ) -
      (chromatic (firstOccurrences [0, 1, 2, 3])
        (buildQuotientAdj [0, 1, 2, 3].length adjC4 [0, 1, 2, 3]) : ℤ) :=
  qi_c1_pass_sound (fun _ _ => none) adjC4 [0, 1, 2, 3] 2 (by decide)
    (by decide) (fun c hc => by cases hc) (by decide) (by decide)

/-- C2 (code bug): the no-threshold `calculateQiNumber` does not compute
the exact `k - χ(Q)`: despite its own debug output announcing
`EXACT (exhaustive)` for `k ≤ 16`, it unconditionally takes the
DSATUR-oracle path and returns `k` minus the oracle's color count.  On the
4-cycle with the identity partition an oracle that answers with a valid
proper 3-coloring makes it store `1`, while the true qi-number (returned
by the exhaustive routine the contract promises) is `4 - χ = 2`. -/
theorem qi_c2_chromatic_path_not_exact :
    ColorableN (firstOccurrences [0, 1, 2, 3])
      (buildQuotientAdj [0, 1, 2, 3].length adjC4 [0, 1, 2, 3]) 3 ∧
    calcQiInternal (fun _ _ => some 3) adjC4 [0, 1, 2, 3] = 1 ∧
    calculateQiNumberInternalExhaustive adjC4 [0, 1, 2, 3] = 2 ∧
    getNumBlocks [0, 1, 2, 3] = 4 ∧
    chromatic (firstOccurrences [0, 1, 2, 3])
      (buildQuotientAdj [0, 1, 2, 3].length adjC4 [0, 1, 2, 3]) = 2 := by
  refine ⟨by decide, by decide, by decide, by decide, ?_⟩
  unfold chromatic
  rw [dif_pos (by decide : ColorableN (firstOccurrences [0, 1, 2, 3])
    (buildQuotientAdj [0, 1, 2, 3].length adjC4 [0, 1, 2, 3])
    (firstOccurrences [0, 1, 2, 3]).length)]
  rw [Nat.find_eq_iff]
  exact ⟨by decide, by decide⟩

/-- C3: for every partition (with in-range labels) whose quotient graph
has `k ≤ 16` block-vertices, the exhaustive backtracking search returns
exactly `k - χ(Q)` (stated additively), and that value is the maximum of
`Σ max(|G_i|-1, 0)` over all partitions of the quotient vertices into
pairwise-disjoint independent sets — the two framings agree. -/
theorem qi_c3_exhaustive_exact (adj : ℕ → ℕ → Bool) (p : List ℕ)
    (hrange : ∀ l ∈ p, l < MAX_VERTICES) (hne : p ≠ [])
    (hk : getNumBlocks p ≤ 16) :
    calculateQiNumberInternalExhaustive adj p +
      chromatic (firstOccurrences p) (buildQuotientAdj p.length adj p) =
      getNumBlocks p ∧
    IsQiMax (firstOccurrences p) (buildQuotientAdj p.length adj p)
      (calculateQiNumberInternalExhaustive adj p) := by
  have hnd := firstOccurrences_nodup p
  have hsym : ∀ a ∈ firstOccurrences p, ∀ b ∈ firstOccurrences p,
      buildQuotientAdj p.length adj p a b = buildQuotientAdj p.length adj p b a :=
    fun a _ b _ => buildQuotientAdj_symm _ _ _ a b
  refine ⟨exhaustive_add_chromatic hrange hne, ?_⟩
  unfold calculateQiNumberInternalExhaustive
  by_cases hk1 : getNumBlocks p = 1
  · rw [if_pos hk1]
    have hlen1 : (firstOccurrences p).length = 1 := by
      rw [← getNumBlocks_eq_length hrange, hk1]
    constructor
    · exact ⟨(firstOccurrences p).map (fun l => [l]),
        (singleton_cover (firstOccurrences p)
          (buildQuotientAdj p.length adj p)).1,
        (singleton_cover (firstOccurrences p)
          (buildQuotientAdj p.length adj p)).2⟩
    · intro parts hcov
      have h1 := coverScore_le_of_cover hcov
      have h2 := one_le_nonemptyCount hcov (firstOccurrences_ne_nil hrange hne)
      omega
  · rw [if_neg hk1]
    exact findOptimalQiF_isQiMax hnd hsym

/-- Witness for C3: the 4-cycle with identity partition (`k = 4 ≤ 16`). -/
theorem qi_c3_exhaustive_exact_witness :
    calculateQiNumberInternalExhaustive adjC4 [0, 1, 2, 3] +
      chromatic (firstOccurrences [0, 1, 2, 3])
        (buildQuotientAdj [0, 1, 2, 3].length adjC4 [0, 1, 2, 3]) =
      getNumBlocks [0, 1, 2, 3] ∧
    IsQiMax (firstOccurrences [0, 1, 2, 3])
      (buildQuotientAdj [0, 1, 2, 3].length adjC4 [0, 1, 2, 3])
      (calculateQiNumberInternalExhaustive adjC4 [0, 1, 2, 3]) :=
  qi_c3_exhaustive_exact adjC4 [0, 1, 2, 3] (by decide) (by decide) (by decide)

/-- C4: early-stopping correctness of the backtracking search.  For every
quotient graph (duplicate-free label list with a symmetric, irreflexive
adjacency, as every quotient graph built by the engine is) and every
threshold `t`: when `t` is at most the true qi-number the early-stopping
search returns a value `≥ t`, and when `t` exceeds the true qi-number the
search runs to completion and returns exactly the true qi-number. -/
theorem qi_c4_early_stopping (L : List ℕ) (adjq : ℕ → ℕ → Bool) (treq : ℕ)
    (hnd : L.Nodup)
    (hsym : ∀ a ∈ L, ∀ b ∈ L, adjq a b = adjq b a)
    (hirr : ∀ a ∈ L, adjq a a = false) :
    (treq ≤ L.length - chromatic L adjq →
      treq ≤ findOptimalQiE adjq L treq (L.length + 1) [] 0 0) ∧
    (L.length - chromatic L adjq < treq →
      findOptimalQiE adjq L treq (L.length + 1) [] 0 0 =
        L.length - chromatic L adjq) :=
  early_search_correct treq hnd hsym hirr

/-- Witness for C4: the 2-path quotient graph `0 - 1` with threshold 0. -/
theorem qi_c4_early_stopping_witness :
    ((0 : ℕ) ≤ [0, 1].length -
        chromatic [0, 1] (buildQuotientAdj 2 adjC4 [0, 1]) →
      (0 : ℕ) ≤ findOptimalQiE (buildQuotientAdj 2 adjC4 [0, 1]) [0, 1] 0
        ([0, 1].length + 1) [] 0 0) ∧
    ([0, 1].length - chromatic [0, 1] (buildQuotientAdj 2 adjC4 [0, 1]) < 0 →
      findOptimalQiE (buildQuotientAdj 2 adjC4 [0, 1]) [0, 1] 0
        ([0, 1].length + 1) [] 0 0 =
        [0, 1].length - chromatic [0, 1] (buildQuotientAdj 2 adjC4 [0, 1])) :=
  qi_c4_early_stopping [0, 1] (buildQuotientAdj 2 adjC4 [0, 1]) 0
    (by decide) (by decide) (by decide)

/-- C5 counterexample: as stated ("for every choice of block ids"), the
claim fails — `performMuOperation` on `b1 = b2 = 0` over the one-vertex
graph succeeds (the single block is independent, so the Operations-side
connectivity check finds no crossing edge) yet the block count does not
drop. -/
theorem op_c5_counterexample :
    (performMuOperation adjNone [0] 0 0).success = true ∧
    getNumBlocks (performMuOperation adjNone [0] 0 0).result_partition ≠
      getNumBlocks [0] - 1 := by decide

/-- C5 (amended): for every graph and partition with in-range labels, and
every pair of DISTINCT USED block labels `b1, b2`, a successful
`performMuOperation` or `performMcOperation` yields a partition over
exactly the input's vertex list (same length, one label per vertex) with
exactly one block fewer. -/
theorem op_c5_merge_counts (adj : ℕ → ℕ → Bool) (p : List ℕ) (b1 b2 : ℕ)
    (hrange : ∀ l ∈ p, l < MAX_VERTICES)
    (h1 : b1 ∈ p) (h2 : b2 ∈ p) (hne : b1 ≠ b2) :
    ((performMuOperation adj p b1 b2).success = true →
      (performMuOperation adj p b1 b2).result_partition.length = p.length ∧
      getNumBlocks (performMuOperation adj p b1 b2).result_partition + 1 =
        getNumBlocks p) ∧
    ((performMcOperationOp adj p b1 b2).success = true →
      (performMcOperationOp adj p b1 b2).result_partition.length = p.length ∧
      getNumBlocks (performMcOperationOp adj p b1 b2).result_partition + 1 =
        getNumBlocks p) := by
  have hcore := merge_renorm_core hrange h1 h2 hne
  constructor
  · intro hs
    unfold performMuOperation at hs ⊢
    by_cases hconn : opBlocksConnected adj p b1 b2
    · rw [if_pos hconn] at hs
      simp at hs
    · rw [if_neg hconn]
      exact hcore
  · intro hs
    unfold performMcOperationOp at hs ⊢
    by_cases hconn : opBlocksConnected adj p b1 b2
    · rw [if_pos hconn]
      exact hcore
    · rw [if_neg hconn] at hs
      simp at hs

/-- Witness for C5: merging the two (unconnected) blocks of the edgeless
two-vertex graph succeeds and drops the block count from 2 to 1. -/
theorem op_c5_merge_counts_witness :
    (performMuOperation adjNone [0, 1] 0 1).success = true ∧
    (((performMuOperation adjNone [0, 1] 0 1).success = true →
      (performMuOperation adjNone [0, 1] 0 1).result_partition.length =
        [0, 1].length ∧
      getNumBlocks (performMuOperation adjNone [0, 1] 0 1).result_partition
        + 1 = getNumBlocks [0, 1]) ∧
    ((performMcOperationOp adjNone [0, 1] 0 1).success = true →
      (performMcOperationOp adjNone [0, 1] 0 1).result_partition.length =
        [0, 1].length ∧
      getNumBlocks (performMcOperationOp adjNone [0, 1] 0 1).result_partition
        + 1 = getNumBlocks [0, 1])) :=
  ⟨by decide, op_c5_merge_counts adjNone [0, 1] 0 1 (by decide) (by decide)
    (by decide) (by decide)⟩

/-- C6 counterexample: `performMuOperation` on the quotient-connected
blocks `0, 1` of the 4-cycle does return `success = false`, but its
`result_partition` is the default-constructed empty partition, NOT the
caller's original partition value. -/
theorem op_c6_counterexample :
    (performMuOperation adjC4 [0, 1, 2, 3] 0 1).success = false ∧
    (performMuOperation adjC4 [0, 1, 2, 3] 0 1).result_partition ≠
      [0, 1, 2, 3] := by decide

/-- C6 (amended): on any pair of blocks with a crossing edge,
`performMuOperation` returns `success = false` with the
default-constructed (zero-vertex) partition in its `result_partition`
field; the caller's partition is untouched (the operation is a pure
function of its arguments and never writes through its input). -/
theorem op_c6_mu_fails_on_connected (adj : ℕ → ℕ → Bool) (p : List ℕ)
    (b1 b2 : ℕ) (hconn : opBlocksConnected adj p b1 b2 = true) :
    (performMuOperation adj p b1 b2).success = false ∧
    (performMuOperation adj p b1 b2).result_partition = [] := by
  unfold performMuOperation
  rw [hconn]
  exact ⟨rfl, rfl⟩

/-- Witness for C6: blocks `0` and `1` of the 4-cycle share the edge
`0-1`. -/
theorem op_c6_mu_fails_on_connected_witness :
    (performMuOperation adjC4 [0, 1, 2, 3] 0 1).success = false ∧
    (performMuOperation adjC4 [0, 1, 2, 3] 0 1).result_partition = [] :=
  op_c6_mu_fails_on_connected adjC4 [0, 1, 2, 3] 0 1 (by decide)

/-- C7: `performRandomMcOperation` returns the partition unchanged when no
pair of distinct used block labels is quotient-connected; otherwise it
returns the input with one quotient-connected pair of blocks merged, the
pair being drawn from the enumerated connected pairs. -/
theorem mc_c7_random_step (adj : ℕ → ℕ → Bool) (p : List ℕ) (r : ℕ)
    (hadj : ∀ u v, adj u v = adj v u)
    (hrange : ∀ l ∈ p, l < MAX_VERTICES) :
    ((∀ b1 ∈ p, ∀ b2 ∈ p, b1 ≠ b2 →
        areBlocksConnectedInQuotient adj p b1 b2 = false) →
      performRandomMcOperation adj p r = p) ∧
    ((¬ ∀ b1 ∈ p, ∀ b2 ∈ p, b1 ≠ b2 →
        areBlocksConnectedInQuotient adj p b1 b2 = false) →
      ∃ pr ∈ findAllMcOperations adj p,
        pr.1 ∈ p ∧ pr.2 ∈ p ∧ pr.1 ≠ pr.2 ∧
        areBlocksConnectedInQuotient adj p pr.1 pr.2 = true ∧
        performRandomMcOperation adj p r =
          performMcOperationMc p pr.1 pr.2) := by
  constructor
  · intro hnoconn
    apply (performRandomMc_cases adj p r).1
    cases hops : findAllMcOperations adj p with
    | nil => rfl
    | cons pr rest =>
      exfalso
      have hs := findAllMcOperations_sound pr (hops ▸ List.mem_cons_self _ _)
      have hfalse := hnoconn pr.1 hs.1 pr.2 hs.2.1 (Nat.ne_of_lt hs.2.2.1)
      rw [hs.2.2.2] at hfalse
      cases hfalse
  · intro hconn
    push_neg at hconn
    obtain ⟨b1, hb1, b2, hb2, hbne, hc⟩ := hconn
    have hctrue : areBlocksConnectedInQuotient adj p b1 b2 = true := by
      cases hv : areBlocksConnectedInQuotient adj p b1 b2
      · exact absurd hv hc
      · rfl
    have hne : findAllMcOperations adj p ≠ [] := by
      rcases Nat.lt_or_ge b1 b2 with hlt | hge
      · have hm := mem_findAllMcOperations_intro hb1 hb2 hlt (hrange b2 hb2)
          hctrue
        intro h0
        rw [h0] at hm
        cases hm
      · have hlt : b2 < b1 := by omega
        have hsymc : areBlocksConnectedInQuotient adj p b2 b1 = true := by
          rw [areBlocksConnected_symm hadj]
          exact hctrue
        have hm := mem_findAllMcOperations_intro hb2 hb1 hlt (hrange b1 hb1)
          hsymc
        intro h0
        rw [h0] at hm
        cases hm
    obtain ⟨pr, hpr, heq⟩ := (performRandomMc_cases adj p r).2 hne
    have hs := findAllMcOperations_sound pr hpr
    exact ⟨pr, hpr, hs.1, hs.2.1, Nat.ne_of_lt hs.2.2.1, hs.2.2.2, heq⟩

/-- Witness for C7: the edgeless two-vertex graph has no connected pair,
so the random Mc step is a no-op. -/
theorem mc_c7_random_step_witness :
    performRandomMcOperation adjNone [0, 1] 5 = [0, 1] :=
  (mc_c7_random_step adjNone [0, 1] 5 (fun u v => rfl) (by decide)).1
    (by decide)

/-- C8: a throwing coloring oracle (modelled as returning `none`) never
propagates: the no-threshold `calculateQiNumber` falls back to the exact
exhaustive computation, and the threshold overload on a large quotient
graph (`k > 15`) returns the undetermined sentinel `-1`. -/
theorem qi_c8_oracle_failure (oracle : Oracle) (adj : ℕ → ℕ → Bool)
    (p : List ℕ) (t : ℤ)
    (hfail : ∀ k a, oracle k a = none) :
    calcQiInternal oracle adj p =
      (calculateQiNumberInternalExhaustive adj p : ℤ) ∧
    (15 < getNumBlocks p → calcQiInternalT oracle adj p t = -1) := by
  constructor
  · unfold calcQiInternal
    by_cases hk : getNumBlocks p = 1
    · rw [if_pos hk]
      unfold calculateQiNumberInternalExhaustive
      rw [if_pos hk]
      rfl
    · rw [if_neg hk, hfail _ _]
  · intro hbig
    unfold calcQiInternalT
    have hk : ¬(getNumBlocks p = 1) := by omega
    rw [if_neg hk, if_pos hbig, hfail _ _]

/-- Witness for C8: a 16-block partition of the edgeless 16-vertex graph
with an always-failing oracle. -/
theorem qi_c8_oracle_failure_witness :
    calcQiInternal (fun _ _ => none) adjNone (List.range 16) =
      (calculateQiNumberInternalExhaustive adjNone (List.range 16) : ℤ) ∧
    (15 < getNumBlocks (List.range 16) →
      calcQiInternalT (fun _ _ => none) adjNone (List.range 16) 3 = -1) :=
  qi_c8_oracle_failure (fun _ _ => none) adjNone (List.range 16) 3
    (fun _ _ => rfl)

/-- C9: the driver-facing Mc merge (`McOperations::performMcOperation`)
has no failure outcome and skips renormalization: for distinct used block
labels `b1, b2`, connected or not, it returns the input with every vertex
labelled `b2` relabelled to `b1` and no other label changed; the result's
label set is the input's label set minus `{b2}`, not a renormalized
contiguous range. -/
theorem mc_c9_merge_no_renormalize (p : List ℕ) (b1 b2 : ℕ)
    (h1 : b1 ∈ p) (h2 : b2 ∈ p) (hne : b1 ≠ b2) :
    performMcOperationMc p b1 b2 =
      p.map (fun l => if l = b2 then b1 else l) ∧
    (performMcOperationMc p b1 b2).toFinset = p.toFinset.erase b2 ∧
    (performMcOperationMc p b1 b2).length = p.length := by
  have heq : performMcOperationMc p b1 b2 =
      p.map (fun l => if l = b2 then b1 else l) := by
    unfold performMcOperationMc mergeBlocks
    rw [if_neg hne]
  refine ⟨heq, ?_, ?_⟩
  · rw [heq, relabel_toFinset h1 hne]
  · rw [heq, List.length_map]

/-- Witness for C9: merging block `2` into block `0` of `[0, 1, 0, 2]`
leaves the non-contiguous label set `{0, 1}` for vertices
`[0, 1, 0, 0]`. -/
theorem mc_c9_merge_no_renormalize_witness :
    performMcOperationMc [0, 1, 0, 2] 0 2 =
      [0, 1, 0, 2].map (fun l => if l = 2 then 0 else l) ∧
    (performMcOperationMc [0, 1, 0, 2] 0 2).toFinset =
      ([0, 1, 0, 2] : List ℕ).toFinset.erase 2 ∧
    (performMcOperationMc [0, 1, 0, 2] 0 2).length = [0, 1, 0, 2].length :=
  mc_c9_merge_no_renormalize [0, 1, 0, 2] 0 2 (by decide) (by decide)
    (by decide)

/-- C10: the driver-loop label-range invariant.  Starting from the
identity partition on `n ≤ MAX_VERTICES` vertices and repeatedly applying
`performRandomMcOperation`, every reachable partition keeps all labels in
`{0, ..., n-1}`, hence below `MAX_VERTICES` — the label-indexed array
accesses of `getNumBlocks` and `findAllMcOperations` stay in bounds. -/
theorem mc_c10_label_range (adj : ℕ → ℕ → Bool) (n : ℕ) (p : List ℕ)
    (hn : n ≤ MAX_VERTICES) (h : ReachableMc adj n p) :
    (∀ l ∈ p, l < n) ∧ (∀ l ∈ p, l < MAX_VERTICES) := by
  have h1 := reachable_labels h
  exact ⟨h1, fun l hl => lt_of_lt_of_le (h1 l hl) hn⟩

/-- Witness for C10: the identity partition on two vertices. -/
theorem mc_c10_label_range_witness :
    (∀ l ∈ List.range 2, l < 2) ∧
    (∀ l ∈ List.range 2, l < MAX_VERTICES) :=
  mc_c10_label_range adjNone 2 (List.range 2) (by decide) ReachableMc.init

end QiValidate
